import Mathlib

/-!
# ThreadPool

A shallow embedding of `src/ThreadPool.h` and a verification of its queue
discipline and of its start/stop protocol.

The shared block `pool` (a mutex, a condition variable, `threads`, `tasks`
and `stop`) becomes the record `Pool`.  Every member function body that runs
under `Lock lock(pool)` is one atomic transition.  The worker lambda of `init`
is cut at its four calls (`exit()`, `get_task()`, `task()`, `rest()`), and
`stop()` is cut at its two blocking points (`pool.wait` and `thread.join`).
A call `wait(lock, pred)` is a transition that is enabled exactly when `pred`
holds; this is what `while (!pred()) wait(lock);` guarantees on return.

The environment is one caller thread that uses the public interface
sequentially; the workers interleave with it freely.  Tasks are opaque: running
one is recorded as an event and does not touch the pool.

Exceptions.  `init` clears the flag on line 80 and only then calls
`pool.threads.resize`, which throws for a size the vector cannot take; the
call then leaves through the exception with the flag cleared and no thread
made (`init_throws`, action `Action.init_throws`, event `Event.thrown`), and
the caller, having caught it, goes on.  Exceptions of a `std::thread`
constructor, of `join`, of a lock and of a task are not part of the model.
-/

namespace ThreadPool

/-! ## Data model -/

/-- Callable `std::function <void ()>` over task bodies `α`; `none` is the empty
function, the value `nullptr` converts to. -/
abbrev Task (α : Type) := Option α

/-- Control point of one worker thread, the lambda of `init` (lines 86-98). -/
inductive Thread (α : Type) where
  /-- About to evaluate `! exit()` in the outer `while`. -/
  | at_exit : Thread α
  /-- About to evaluate `task = get_task()` in the inner `while`. -/
  | at_get_task : Thread α
  /-- Holding a non-null `task`, about to run `task()`. -/
  | at_task (t : α) : Thread α
  /-- Inside `rest()`. -/
  | at_rest : Thread α
  /-- Left the outer loop: the lambda has returned and `join()` succeeds. -/
  | finished : Thread α
  deriving DecidableEq

/-- The anonymous struct `pool` (lines 27-36).  `tasks` is the
`std::multimap <Size, Task>` in iteration order, `begin()` first. -/
structure Pool (α : Type) where
  threads : List (Thread α)
  tasks : List (Nat × Task α)
  stop : Bool
  deriving DecidableEq

/-- Value of `(Size) - 1` for a `Size` of `w` bits: `-1` converted to the
unsigned type, that is `-1` modulo `2 ^ w`. -/
def default_priority (w : Nat) : Nat := (((-1 : Int)) % ((2 : Int) ^ w)).toNat

/-- Insertion of `std::multimap::emplace` (line 55): the new element goes to
the upper bound of its key, behind every element whose key is not greater, as
the standard prescribes for equivalent keys and the comment on that line
relies on. -/
def multimap_emplace {α : Type} (priority : Nat) (task : Task α) :
    List (Nat × Task α) → List (Nat × Task α)
  | [] => [(priority, task)]
  | e :: es =>
    if priority < e.1 then (priority, task) :: e :: es
    else e :: multimap_emplace priority task es

/-! ## Member functions (each body runs under the lock) -/

/-- Body of `add_task (task, priority)`, lines 51-58. -/
def add_task {α : Type} (task : Task α) (priority : Nat) (p : Pool α) : Pool α :=
  { p with tasks := multimap_emplace priority task p.tasks }

/-- Call `add_task (task)` with the default argument `(Size) - 1`. -/
def add_task_default {α : Type} (w : Nat) (task : Task α) (p : Pool α) : Pool α :=
  add_task task (default_priority w) p

/-- Body of `get_task ()`, lines 60-69: the returned task and the pool after. -/
def get_task {α : Type} (p : Pool α) : Task α × Pool α :=
  match p.tasks with
  | [] => (none, p)
  | e :: es => (e.2, { p with tasks := es })

/-- Body of `init (size)`, lines 72-99, when it runs to its end.  `resize`
makes the vector `size` long and the loop stores a new thread, at the top of
its lambda, in every slot.  The body can also be left through an exception:
see `init_throws`. -/
def init {α : Type} (size : Nat) (p : Pool α) : Pool α :=
  if !p.stop || size == 0 then p
  else { p with stop := false, threads := List.replicate size Thread.at_exit }

/-- Body of `init (size)`, lines 72-82, when `pool.threads.resize (size)`
throws (`std::length_error` for a `size` above `max_size ()`, as `(Size) - 1`
always is, `std::bad_alloc` when memory is short): the pool the exception
leaves behind.  Line 80 has cleared the flag, the vector is as it was, no
thread has been made.  `none` when the guard of line 76 returns first. -/
def init_throws {α : Type} (size : Nat) (p : Pool α) : Option (Pool α) :=
  if !p.stop || size == 0 then none
  else some { p with stop := false }

/-- Body of `size ()`, lines 124-129. -/
def size {α : Type} (p : Pool α) : Nat := p.threads.length

/-- Body of `exit ()`, lines 142-147. -/
def exit {α : Type} (p : Pool α) : Bool := p.stop

/-- Predicate `rest ()` waits for, line 139. -/
def rest_pred {α : Type} (p : Pool α) : Bool := !p.tasks.isEmpty || p.stop

/-- Predicate `stop ()` waits for, line 109. -/
def stop_pred {α : Type} (p : Pool α) : Bool := p.tasks.isEmpty

/-- Member initialisers of `pool`: no threads, no tasks, `stop = true`. -/
def members (α : Type) : Pool α := { threads := [], tasks := [], stop := true }

/-- Repeated `add_task` calls, in the order of the list. -/
def add_tasks {α : Type} : List (Nat × Task α) → Pool α → Pool α
  | [], p => p
  | e :: es, p => add_tasks es (add_task e.2 e.1 p)

/-- Answers of `k` successive `get_task ()` calls, and the pool they leave. -/
def get_tasks {α : Type} : Nat → Pool α → List (Task α) × Pool α
  | 0, p => ([], p)
  | k + 1, p =>
    ((get_task p).1 :: (get_tasks k (get_task p).2).1, (get_tasks k (get_task p).2).2)

/-- Inner loop of a worker, `while ((task = get_task())) task();`, run alone:
the tasks it runs, in order, and the pool it leaves.  One unit of fuel per
iteration. -/
def drain_loop {α : Type} : Nat → Pool α → List α × Pool α
  | 0, p => ([], p)
  | fuel + 1, p =>
    match get_task p with
    | (none, q) => ([], q)
    | (some t, q) => ((t :: (drain_loop fuel q).1), (drain_loop fuel q).2)

/-- The inner loop with fuel for every queued entry and the final empty answer. -/
def drain {α : Type} (p : Pool α) : List α × Pool α :=
  drain_loop (p.tasks.length + 1) p

/-! ## The pool as a transition system -/

/-- Where the caller thread is: between calls, or blocked inside `stop ()`. -/
inductive Caller where
  /-- Between two calls of the public interface. -/
  | idle : Caller
  /-- Inside `stop ()`, at `pool.wait` (line 109). -/
  | stop_wait : Caller
  /-- Inside `stop ()`, in the join loop (lines 117-119), about to join
  `pool.threads[j]`; past the last index it clears the vector (line 121). -/
  | stop_join (j : Nat) : Caller
  deriving DecidableEq

/-- Shared block together with the control point of the caller. -/
structure Sys (α : Type) where
  pool : Pool α
  caller : Caller
  deriving DecidableEq

/-- One scheduling decision. -/
inductive Action (α : Type) where
  /-- The caller runs `add_task (task, priority)`. -/
  | add_task (task : Task α) (priority : Nat) : Action α
  /-- The caller runs `get_task ()`. -/
  | get_task : Action α
  /-- The caller runs `init (size)` and the call returns. -/
  | init (size : Nat) : Action α
  /-- The caller runs `init (size)`, `resize` throws, the caller catches. -/
  | init_throws (size : Nat) : Action α
  /-- The caller enters `stop ()`. -/
  | stop : Action α
  /-- The caller, blocked in `stop ()`, gets past its current blocking point. -/
  | resume : Action α
  /-- Worker `pool.threads[i]` runs up to its next control point. -/
  | worker (i : Nat) : Action α
  deriving DecidableEq

/-- What a transition does besides changing the shared block. -/
inductive Event (α : Type) where
  /-- A worker ran `task ()` for the body `t`. -/
  | executed (t : α) : Event α
  /-- The call `get_task ()` of the caller returned `task`. -/
  | returned (task : Task α) : Event α
  /-- The loop of `init` created `size` threads. -/
  | spawned (size : Nat) : Event α
  /-- A call of the caller was left through an exception. -/
  | thrown : Event α
  deriving DecidableEq

/-- One step of the worker lambda from control point `t`; `none` when the
worker is blocked in `rest ()` or has finished. -/
def worker_step {α : Type} (t : Thread α) (p : Pool α) :
    Option (Thread α × Pool α × List (Event α)) :=
  match t with
  | Thread.at_exit =>
    if exit p then some (Thread.finished, p, []) else some (Thread.at_get_task, p, [])
  | Thread.at_get_task =>
    match get_task p with
    | (some t, q) => some (Thread.at_task t, q, [])
    | (none, q) => some (Thread.at_rest, q, [])
  | Thread.at_task t => some (Thread.at_get_task, p, [Event.executed t])
  | Thread.at_rest => if rest_pred p then some (Thread.at_exit, p, []) else none
  | Thread.finished => none

/-- Continuation of `stop ()` from a blocking point (lines 109-121); `none`
while the caller stays blocked. -/
def stop_resume {α : Type} (s : Sys α) : Option (Sys α) :=
  match s.caller with
  | Caller.idle => none
  | Caller.stop_wait =>
    if stop_pred s.pool then
      some { pool := { s.pool with stop := true }, caller := Caller.stop_join 0 }
    else none
  | Caller.stop_join j =>
    match s.pool.threads[j]? with
    | none => some { pool := { s.pool with threads := [] }, caller := Caller.idle }
    | some Thread.finished => some { s with caller := Caller.stop_join (j + 1) }
    | some _ => none

/-- Transition function: the state after the action and what it did, or
`none` when the action is not enabled. -/
def step {α : Type} (a : Action α) (s : Sys α) : Option (Sys α × List (Event α)) :=
  match a with
  | Action.add_task task priority =>
    if s.caller = Caller.idle then
      some ({ s with pool := add_task task priority s.pool }, [])
    else none
  | Action.get_task =>
    if s.caller = Caller.idle then
      some ({ s with pool := (get_task s.pool).2 }, [Event.returned (get_task s.pool).1])
    else none
  | Action.init size =>
    if s.caller = Caller.idle then
      some ({ s with pool := init size s.pool },
        if !s.pool.stop || size == 0 then [] else [Event.spawned size])
    else none
  | Action.init_throws size =>
    if s.caller = Caller.idle then
      match init_throws size s.pool with
      | none => none
      | some q => some ({ s with pool := q }, [Event.thrown])
    else none
  | Action.stop =>
    if s.caller = Caller.idle then
      if s.pool.stop then some (s, []) else some ({ s with caller := Caller.stop_wait }, [])
    else none
  | Action.resume =>
    match stop_resume s with
    | none => none
    | some s1 => some (s1, [])
  | Action.worker i =>
    match s.pool.threads[i]? with
    | none => none
    | some t =>
      match worker_step t s.pool with
      | none => none
      | some (t1, q, ev) =>
        some ({ s with pool := { q with threads := q.threads.set i t1 } }, ev)

/-- Execution of a schedule from a state and the events so far; `none` when
some action of the schedule is not enabled at its turn. -/
def run {α : Type} : List (Action α) → Sys α × List (Event α) →
    Option (Sys α × List (Event α))
  | [], c => some c
  | a :: as, c =>
    match step a c.1 with
    | none => none
    | some (s, ev) => run as (s, c.2 ++ ev)

/-- State before the constructor body runs. -/
def boot (α : Type) : Sys α := { pool := members α, caller := Caller.idle }

/-- Life of a pool built by `ThreadPool (size)`: the constructor body is
`init (size)`; once the constructor has returned, the schedule follows. -/
def created {α : Type} (size : Nat) (acts : List (Action α)) :
    Option (Sys α × List (Event α)) :=
  run (Action.init size :: acts) (boot α, [])

/-- Bodies handed over by `add_task` calls of a schedule, in call order.  An
empty task has no body and is not counted. -/
def submitted {α : Type} : List (Action α) → List α
  | [] => []
  | Action.add_task (some t) _ :: as => t :: submitted as
  | _ :: as => submitted as

/-- Entries handed over by `add_task` calls of a schedule, in call order. -/
def submissions {α : Type} : List (Action α) → List (Nat × Task α)
  | [] => []
  | Action.add_task task priority :: as => (priority, task) :: submissions as
  | _ :: as => submissions as

/-- Bodies run by workers, in execution order. -/
def executed {α : Type} : List (Event α) → List α
  | [] => []
  | Event.executed t :: es => t :: executed es
  | _ :: es => executed es

/-- Bodies handed back to the caller by its own `get_task ()` calls. -/
def taken {α : Type} : List (Event α) → List α
  | [] => []
  | Event.returned (some t) :: es => t :: taken es
  | _ :: es => taken es

/-- Size argument of the latest `init` that created threads, if any. -/
def last_spawned {α : Type} : List (Event α) → Option Nat → Option Nat
  | [], r => r
  | Event.spawned n :: es, _ => last_spawned es (some n)
  | _ :: es, r => last_spawned es r

/-- Bodies of the queued entries, in queue order. -/
def queued {α : Type} (p : Pool α) : List α := p.tasks.filterMap Prod.snd

/-- Bodies held by workers that have taken and not yet run them. -/
def in_flight {α : Type} : List (Thread α) → List α
  | [] => []
  | Thread.at_task t :: ts => t :: in_flight ts
  | _ :: ts => in_flight ts

/-- Entries of a queue with the given priority, in queue order. -/
def tier {β : Type} (priority : Nat) (q : List (Nat × β)) : List (Nat × β) :=
  q.filter (fun e => e.1 == priority)

/-- Order of `std::multimap` iteration: keys never decrease. -/
def ordered {β : Type} (q : List (Nat × β)) : Prop :=
  q.Pairwise (fun a b => a.1 ≤ b.1)

/-- Wording of the ordering contract: `out` holds the submissions `subs` with
smaller priority values first and equal priorities in submission order. -/
def stably_sorted {β : Type} (subs out : List (Nat × β)) : Prop :=
  ordered out ∧ ∀ priority, tier priority out = tier priority subs

/-! ## The transitions of `step`, one rule per branch -/

/-- Branches of `step` as rules: `Moves a s s1 ev` lists, for every action, the
states it is enabled in, the state it leads to and the events it produces. -/
inductive Moves {α : Type} : Action α → Sys α → Sys α → List (Event α) → Prop where
  | add (p : Pool α) (task : Task α) (priority : Nat) :
    Moves (Action.add_task task priority) ⟨p, Caller.idle⟩
      ⟨add_task task priority p, Caller.idle⟩ []
  | get_empty (th : List (Thread α)) (st : Bool) :
    Moves Action.get_task ⟨⟨th, [], st⟩, Caller.idle⟩ ⟨⟨th, [], st⟩, Caller.idle⟩
      [Event.returned none]
  | get_entry (th : List (Thread α)) (k : Nat) (task : Task α) (es : List (Nat × Task α))
      (st : Bool) :
    Moves Action.get_task ⟨⟨th, (k, task) :: es, st⟩, Caller.idle⟩ ⟨⟨th, es, st⟩, Caller.idle⟩
      [Event.returned task]
  | init_skip (p : Pool α) (size : Nat) (h : p.stop = false ∨ size = 0) :
    Moves (Action.init size) ⟨p, Caller.idle⟩ ⟨p, Caller.idle⟩ []
  | init_spawn (th : List (Thread α)) (q : List (Nat × Task α)) (size : Nat) (h : size ≠ 0) :
    Moves (Action.init size) ⟨⟨th, q, true⟩, Caller.idle⟩
      ⟨⟨List.replicate size Thread.at_exit, q, false⟩, Caller.idle⟩ [Event.spawned size]
  | init_unwind (th : List (Thread α)) (q : List (Nat × Task α)) (size : Nat)
      (h : size ≠ 0) :
    Moves (Action.init_throws size) ⟨⟨th, q, true⟩, Caller.idle⟩
      ⟨⟨th, q, false⟩, Caller.idle⟩ [Event.thrown]
  | stop_skip (th : List (Thread α)) (q : List (Nat × Task α)) :
    Moves Action.stop ⟨⟨th, q, true⟩, Caller.idle⟩ ⟨⟨th, q, true⟩, Caller.idle⟩ []
  | stop_enter (th : List (Thread α)) (q : List (Nat × Task α)) :
    Moves Action.stop ⟨⟨th, q, false⟩, Caller.idle⟩ ⟨⟨th, q, false⟩, Caller.stop_wait⟩ []
  | resume_wait (th : List (Thread α)) (st : Bool) :
    Moves Action.resume ⟨⟨th, [], st⟩, Caller.stop_wait⟩ ⟨⟨th, [], true⟩, Caller.stop_join 0⟩ []
  | resume_join (p : Pool α) (j : Nat) (h : p.threads[j]? = some Thread.finished) :
    Moves Action.resume ⟨p, Caller.stop_join j⟩ ⟨p, Caller.stop_join (j + 1)⟩ []
  | resume_clear (th : List (Thread α)) (q : List (Nat × Task α)) (st : Bool) (j : Nat)
      (h : th[j]? = none) :
    Moves Action.resume ⟨⟨th, q, st⟩, Caller.stop_join j⟩ ⟨⟨[], q, st⟩, Caller.idle⟩ []
  | exit_true (th : List (Thread α)) (q : List (Nat × Task α)) (c : Caller) (i : Nat)
      (h : th[i]? = some Thread.at_exit) :
    Moves (Action.worker i) ⟨⟨th, q, true⟩, c⟩ ⟨⟨th.set i Thread.finished, q, true⟩, c⟩ []
  | exit_false (th : List (Thread α)) (q : List (Nat × Task α)) (c : Caller) (i : Nat)
      (h : th[i]? = some Thread.at_exit) :
    Moves (Action.worker i) ⟨⟨th, q, false⟩, c⟩ ⟨⟨th.set i Thread.at_get_task, q, false⟩, c⟩ []
  | take_empty (th : List (Thread α)) (st : Bool) (c : Caller) (i : Nat)
      (h : th[i]? = some Thread.at_get_task) :
    Moves (Action.worker i) ⟨⟨th, [], st⟩, c⟩ ⟨⟨th.set i Thread.at_rest, [], st⟩, c⟩ []
  | take_null (th : List (Thread α)) (k : Nat) (es : List (Nat × Task α)) (st : Bool)
      (c : Caller) (i : Nat) (h : th[i]? = some Thread.at_get_task) :
    Moves (Action.worker i) ⟨⟨th, (k, none) :: es, st⟩, c⟩
      ⟨⟨th.set i Thread.at_rest, es, st⟩, c⟩ []
  | take_task (th : List (Thread α)) (k : Nat) (t : α) (es : List (Nat × Task α)) (st : Bool)
      (c : Caller) (i : Nat) (h : th[i]? = some Thread.at_get_task) :
    Moves (Action.worker i) ⟨⟨th, (k, some t) :: es, st⟩, c⟩
      ⟨⟨th.set i (Thread.at_task t), es, st⟩, c⟩ []
  | call (th : List (Thread α)) (q : List (Nat × Task α)) (st : Bool) (c : Caller) (i : Nat)
      (t : α) (h : th[i]? = some (Thread.at_task t)) :
    Moves (Action.worker i) ⟨⟨th, q, st⟩, c⟩ ⟨⟨th.set i Thread.at_get_task, q, st⟩, c⟩
      [Event.executed t]
  | wake (th : List (Thread α)) (q : List (Nat × Task α)) (st : Bool) (c : Caller) (i : Nat)
      (h : th[i]? = some Thread.at_rest) (hp : q ≠ [] ∨ st = true) :
    Moves (Action.worker i) ⟨⟨th, q, st⟩, c⟩ ⟨⟨th.set i Thread.at_exit, q, st⟩, c⟩ []

/-! ## Invariants -/

/-- Invariant of the start/stop protocol.  Between calls a stopped pool has no
thread handles; while `stop ()` waits the flag is clear; in its join loop the
flag is set, the queue is empty and the threads already joined have
finished. -/
def protocol {α : Type} (c : Sys α × List (Event α)) : Prop :=
  match c.1.caller with
  | Caller.idle => c.1.pool.stop = true → c.1.pool.threads = []
  | Caller.stop_wait => c.1.pool.stop = false
  | Caller.stop_join j =>
    c.1.pool.stop = true ∧ c.1.pool.tasks = [] ∧
    ∀ i, i < j → ∀ t, c.1.pool.threads[i]? = some t → t = Thread.finished

/-- Invariant of the size: as long as no call has been left through an
exception, a running pool has as many thread handles as the latest `init`
that created threads asked for. -/
def sized {α : Type} (c : Sys α × List (Event α)) : Prop :=
  (∀ e ∈ c.2, e ≠ Event.thrown) → c.1.pool.stop = false →
    last_spawned c.2 none = some c.1.pool.threads.length

/-- Conservation of task bodies: what was submitted is, as a multiset, what is
queued, what workers hold, what workers have run and what the caller took
back. -/
def conserved {α : Type} (h : List (Action α)) (c : Sys α × List (Event α)) : Prop :=
  (submitted h : Multiset α) =
    (queued c.1.pool : Multiset α) + (in_flight c.1.pool.threads : Multiset α) +
      (executed c.2 : Multiset α) + (taken c.2 : Multiset α)

/-- Invariant of the queue: keys never decrease along it, and within each
priority the queued entries are the latest submissions of that priority, in
submission order. -/
def queue_inv {α : Type} (h : List (Action α)) (c : Sys α × List (Event α)) : Prop :=
  ordered c.1.pool.tasks ∧ ∀ r, tier r c.1.pool.tasks <:+ tier r (submissions h)

/-- While `stop ()` is in progress, and after it, the flag is set as soon as
the caller has left `pool.wait`. -/
def stop_flag {α : Type} (s : Sys α) : Prop :=
  s.caller = Caller.stop_wait ∨ s.pool.stop = true

/-! ## The queue: `multimap_emplace` -/

section queue
variable {α : Type}

theorem emplace_split (priority : Nat) (task : Task α) (q : List (Nat × Task α)) :
    ∃ l1 l2, q = l1 ++ l2 ∧ multimap_emplace priority task q = l1 ++ (priority, task) :: l2 ∧
      (∀ e ∈ l1, e.1 ≤ priority) ∧ (∀ e, l2.head? = some e → priority < e.1) := by
  induction q with
  | nil => exact ⟨[], [], rfl, rfl, by simp, by simp⟩
  | cons e es ih =>
    by_cases h : priority < e.1
    · refine ⟨[], e :: es, rfl, by simp [multimap_emplace, h], by simp, ?_⟩
      intro x hx
      simp at hx
      subst hx
      exact h
    · obtain ⟨l1, l2, h1, h2, h3, h4⟩ := ih
      refine ⟨e :: l1, l2, by simp [h1], by simp [multimap_emplace, h, h2], ?_, h4⟩
      intro x hx
      simp at hx
      rcases hx with rfl | hx
      · omega
      · exact h3 x hx

theorem emplace_perm (priority : Nat) (task : Task α) (q : List (Nat × Task α)) :
    (multimap_emplace priority task q).Perm ((priority, task) :: q) := by
  obtain ⟨l1, l2, h1, h2, -, -⟩ := emplace_split priority task q
  rw [h2, h1]
  exact List.perm_middle

theorem emplace_length (priority : Nat) (task : Task α) (q : List (Nat × Task α)) :
    (multimap_emplace priority task q).length = q.length + 1 := by
  simpa using (emplace_perm priority task q).length_eq

theorem emplace_ordered (priority : Nat) (task : Task α) (q : List (Nat × Task α))
    (hq : ordered q) : ordered (multimap_emplace priority task q) := by
  induction q with
  | nil => simp [multimap_emplace, ordered]
  | cons e es ih =>
    unfold ordered at hq ih ⊢
    rw [List.pairwise_cons] at hq
    by_cases h : priority < e.1
    · simp only [multimap_emplace, h, if_true]
      refine List.pairwise_cons.2 ⟨?_, List.pairwise_cons.2 hq⟩
      intro x hx
      simp at hx
      rcases hx with rfl | hx
      · exact Nat.le_of_lt h
      · exact Nat.le_trans (Nat.le_of_lt h) (hq.1 x hx)
    · simp only [multimap_emplace, h, if_false]
      refine List.pairwise_cons.2 ⟨?_, ih hq.2⟩
      intro x hx
      have hx1 := (emplace_perm priority task es).mem_iff.1 hx
      rw [List.mem_cons] at hx1
      rcases hx1 with hx1 | hx1
      · subst hx1
        exact Nat.le_of_not_lt h
      · exact hq.1 x hx1

theorem tier_eq_nil_of_lt (r : Nat) (q : List (Nat × Task α))
    (h : ∀ e ∈ q, r < e.1) : tier r q = [] := by
  unfold tier
  rw [List.filter_eq_nil_iff]
  intro e he
  have := h e he
  simp
  omega

theorem emplace_tier (priority : Nat) (task : Task α) (r : Nat) (q : List (Nat × Task α))
    (hq : ordered q) :
    tier r (multimap_emplace priority task q) =
      tier r q ++ (if priority = r then [(priority, task)] else []) := by
  induction q with
  | nil =>
    by_cases h : priority = r <;> simp [multimap_emplace, tier, h]
  | cons e es ih =>
    unfold ordered at hq ih
    rw [List.pairwise_cons] at hq
    by_cases h : priority < e.1
    · simp only [multimap_emplace, h, if_true]
      by_cases hr : priority = r
      · subst hr
        have hnil : tier priority (e :: es) = [] := by
          apply tier_eq_nil_of_lt
          intro x hx
          simp at hx
          rcases hx with rfl | hx
          · exact h
          · exact Nat.lt_of_lt_of_le h (hq.1 x hx)
        have : tier priority ((priority, task) :: e :: es) =
            (priority, task) :: tier priority (e :: es) := by
          simp [tier]
        rw [this, hnil]
        simp
      · simp [tier, hr]
    · simp only [multimap_emplace, h, if_false]
      have hc : ∀ l : List (Nat × Task α), tier r (e :: l) =
          (if e.1 = r then [e] else []) ++ tier r l := by
        intro l
        by_cases he : e.1 = r <;> simp [tier, he]
      rw [hc, hc, ih hq.2, List.append_assoc]

end queue

section transitions
variable {α : Type}

theorem step_moves {a : Action α} {s s1 : Sys α} {ev : List (Event α)}
    (h : step a s = some (s1, ev)) : Moves a s s1 ev := by
  obtain ⟨⟨th, q, st⟩, c⟩ := s
  cases a with
  | add_task task priority =>
    simp only [step] at h
    split at h
    · rename_i hc
      subst hc
      simp only [Option.some.injEq, Prod.mk.injEq] at h
      obtain ⟨rfl, rfl⟩ := h
      exact Moves.add _ _ _
    · exact absurd h (by simp)
  | get_task =>
    simp only [step] at h
    split at h
    · rename_i hc
      subst hc
      simp only [Option.some.injEq, Prod.mk.injEq] at h
      obtain ⟨rfl, rfl⟩ := h
      cases q with
      | nil => exact Moves.get_empty _ _
      | cons e es => exact Moves.get_entry _ _ _ _ _
    · exact absurd h (by simp)
  | init size =>
    simp only [step] at h
    split at h
    · rename_i hc
      subst hc
      simp only [Option.some.injEq, Prod.mk.injEq] at h
      obtain ⟨rfl, rfl⟩ := h
      by_cases hz : size = 0
      · subst hz
        simpa [init] using Moves.init_skip ⟨th, q, st⟩ 0 (Or.inr rfl)
      · cases st
        · simpa [init] using Moves.init_skip ⟨th, q, false⟩ size (Or.inl rfl)
        · simpa [init, hz] using Moves.init_spawn th q size hz
    · exact absurd h (by simp)
  | init_throws size =>
    simp only [step] at h
    split at h
    · rename_i hc
      subst hc
      by_cases hz : size = 0
      · simp [init_throws, hz] at h
      · cases st
        · simp [init_throws] at h
        · simp [init_throws, hz] at h
          obtain ⟨rfl, rfl⟩ := h
          exact Moves.init_unwind th q size hz
    · exact absurd h (by simp)
  | stop =>
    simp only [step] at h
    split at h
    · rename_i hc
      subst hc
      cases st
      · simp at h
        obtain ⟨rfl, rfl⟩ := h
        exact Moves.stop_enter _ _
      · simp at h
        obtain ⟨rfl, rfl⟩ := h
        exact Moves.stop_skip _ _
    · exact absurd h (by simp)
  | resume =>
    simp only [step] at h
    cases c with
    | idle => simp [stop_resume] at h
    | stop_wait =>
      cases q with
      | nil =>
        simp [stop_resume, stop_pred] at h
        obtain ⟨rfl, rfl⟩ := h
        exact Moves.resume_wait _ _
      | cons e es => simp [stop_resume, stop_pred] at h
    | stop_join j =>
      simp only [stop_resume] at h
      cases hj : th[j]? with
      | none =>
        simp [hj] at h
        obtain ⟨rfl, rfl⟩ := h
        exact Moves.resume_clear _ _ _ _ hj
      | some t =>
        cases t <;> simp [hj] at h
        obtain ⟨rfl, rfl⟩ := h
        exact Moves.resume_join _ _ hj
  | worker i =>
    simp only [step] at h
    cases hi : th[i]? with
    | none => simp [hi] at h
    | some t =>
      cases t with
      | at_exit =>
        cases st
        · simp [hi, worker_step, exit] at h
          obtain ⟨rfl, rfl⟩ := h
          exact Moves.exit_false _ _ _ _ hi
        · simp [hi, worker_step, exit] at h
          obtain ⟨rfl, rfl⟩ := h
          exact Moves.exit_true _ _ _ _ hi
      | at_get_task =>
        cases q with
        | nil =>
          simp [hi, worker_step, get_task] at h
          obtain ⟨rfl, rfl⟩ := h
          exact Moves.take_empty _ _ _ _ hi
        | cons e es =>
          obtain ⟨k, task⟩ := e
          cases task with
          | none =>
            simp [hi, worker_step, get_task] at h
            obtain ⟨rfl, rfl⟩ := h
            exact Moves.take_null _ _ _ _ _ _ hi
          | some t =>
            simp [hi, worker_step, get_task] at h
            obtain ⟨rfl, rfl⟩ := h
            exact Moves.take_task _ _ _ _ _ _ _ hi
      | at_task t =>
        simp [hi, worker_step] at h
        obtain ⟨rfl, rfl⟩ := h
        exact Moves.call _ _ _ _ _ _ hi
      | at_rest =>
        by_cases hp : rest_pred ⟨th, q, st⟩ = true
        · simp [hi, worker_step, hp] at h
          obtain ⟨rfl, rfl⟩ := h
          refine Moves.wake _ _ _ _ _ hi ?_
          simpa [rest_pred] using hp
        · simp [hi, worker_step, hp] at h
      | finished => simp [hi, worker_step] at h

/-- Invariants of `run`: a property of the history of actions, the state and
the events that every enabled step preserves holds along every execution. -/
theorem run_invariant (P : List (Action α) → Sys α × List (Event α) → Prop)
    (hstep : ∀ h a s tr s1 ev, P h (s, tr) → Moves a s s1 ev → P (h ++ [a]) (s1, tr ++ ev)) :
    ∀ (acts h : List (Action α)) (c c1 : Sys α × List (Event α)),
      P h c → run acts c = some c1 → P (h ++ acts) c1 := by
  intro acts
  induction acts with
  | nil =>
    intro h c c1 hP hr
    simp only [run, Option.some.injEq] at hr
    subst hr
    simpa using hP
  | cons a as ih =>
    intro h c c1 hP hr
    obtain ⟨s, tr⟩ := c
    simp only [run] at hr
    cases hs : step a s with
    | none => simp [hs] at hr
    | some r =>
      obtain ⟨s1, ev⟩ := r
      simp only [hs] at hr
      have := ih (h ++ [a]) (s1, tr ++ ev) c1 (hstep h a s tr s1 ev hP (step_moves hs)) hr
      simpa using this

theorem run_append (l1 l2 : List (Action α)) (c : Sys α × List (Event α)) :
    run (l1 ++ l2) c = (run l1 c).bind (run l2) := by
  induction l1 generalizing c with
  | nil => simp [run]
  | cons a as ih =>
    obtain ⟨s, tr⟩ := c
    simp only [List.cons_append, run]
    cases hs : step a s with
    | none => simp
    | some r => simp [ih]

end transitions

/-! ## The start/stop protocol -/

section protocol
variable {α : Type}

theorem last_spawned_append (a b : List (Event α)) (r : Option Nat) :
    last_spawned (a ++ b) r = last_spawned b (last_spawned a r) := by
  induction a generalizing r with
  | nil => rfl
  | cons e es ih => cases e <;> simp [last_spawned, ih]

theorem joined_set {th : List (Thread α)} {i j : Nat} {t t1 : Thread α}
    (hi : th[i]? = some t) (ht : t ≠ Thread.finished)
    (hj : ∀ k, k < j → ∀ u, th[k]? = some u → u = Thread.finished) :
    ∀ k, k < j → ∀ u, (th.set i t1)[k]? = some u → u = Thread.finished := by
  intro k hk u hu
  by_cases hik : i = k
  · subst hik
    exact absurd (hj i hk t hi) ht
  · rw [List.getElem?_set_ne hik] at hu
    exact hj k hk u hu

theorem protocol_worker {th : List (Thread α)} {q q1 : List (Nat × Task α)} {st : Bool}
    {c : Caller} {tr : List (Event α)} {i : Nat} {t : Thread α} (t1 : Thread α)
    (b : List α) (hi : th[i]? = some t) (ht : t ≠ Thread.finished) (hq : q = [] → q1 = [])
    (hP : protocol (⟨⟨th, q, st⟩, c⟩, tr)) :
    protocol (⟨⟨th.set i t1, q1, st⟩, c⟩, tr ++ b.map Event.executed) := by
  cases c with
  | idle =>
    simp only [protocol] at hP ⊢
    intro h
    have := hP h
    subst this
    simp at hi
  | stop_wait =>
    simp only [protocol] at hP ⊢
    exact hP
  | stop_join j =>
    simp only [protocol] at hP ⊢
    exact ⟨hP.1, hq hP.2.1, joined_set hi ht hP.2.2⟩

theorem protocol_step {a : Action α} {s s1 : Sys α} {tr ev : List (Event α)}
    (hP : protocol (s, tr)) (hm : Moves a s s1 ev) : protocol (s1, tr ++ ev) := by
  cases hm with
  | add p task priority => simpa [protocol, add_task] using hP
  | get_empty th st => simpa [protocol] using hP
  | get_entry th k task es st => simpa [protocol] using hP
  | init_skip p size h => simpa [protocol] using hP
  | init_spawn th q size h => simp [protocol]
  | init_unwind th q size h => simp [protocol]
  | stop_skip th q => simpa [protocol] using hP
  | stop_enter th q => simp [protocol]
  | resume_wait th st => simp [protocol]
  | resume_join p j h =>
    simp only [protocol, List.append_nil] at hP ⊢
    refine ⟨hP.1, hP.2.1, ?_⟩
    intro i hi t ht
    by_cases hij : i = j
    · subst hij
      rw [h] at ht
      exact (Option.some.inj ht).symm
    · exact hP.2.2 i (by omega) t ht
  | resume_clear th q st j h => simp [protocol]
  | exit_true th q c i h =>
    simpa using protocol_worker Thread.finished [] h (by simp) (fun e => e) hP
  | exit_false th q c i h =>
    simpa using protocol_worker Thread.at_get_task [] h (by simp) (fun e => e) hP
  | take_empty th st c i h =>
    simpa using protocol_worker Thread.at_rest [] h (by simp) (fun e => e) hP
  | take_null th k es st c i h =>
    simpa using protocol_worker Thread.at_rest [] h (by simp) (by simp) hP
  | take_task th k t es st c i h =>
    simpa using protocol_worker (Thread.at_task t) [] h (by simp) (by simp) hP
  | call th q st c i t h =>
    simpa using protocol_worker Thread.at_get_task [t] h (by simp) (fun e => e) hP
  | wake th q st c i h hp =>
    simpa using protocol_worker Thread.at_exit [] h (by simp) (fun e => e) hP

theorem sized_worker {th : List (Thread α)} {q q1 : List (Nat × Task α)} {st : Bool}
    {c : Caller} {tr : List (Event α)} (i : Nat) (t1 : Thread α) (b : List α)
    (hS : sized (⟨⟨th, q, st⟩, c⟩, tr)) :
    sized (⟨⟨th.set i t1, q1, st⟩, c⟩, tr ++ b.map Event.executed) := by
  have hl : last_spawned (tr ++ b.map Event.executed) none = last_spawned tr none := by
    rw [last_spawned_append]
    generalize last_spawned tr none = r
    induction b with
    | nil => rfl
    | cons x xs ih => simpa [last_spawned] using ih
  intro hno hst
  simp only [hl, List.length_set]
  exact hS (fun e he => hno e (by simp [he])) hst

theorem sized_step {a : Action α} {s s1 : Sys α} {tr ev : List (Event α)}
    (hP : protocol (s, tr)) (hS : sized (s, tr)) (hm : Moves a s s1 ev) :
    sized (s1, tr ++ ev) := by
  cases hm with
  | add p task priority => simpa [sized, add_task] using hS
  | get_empty th st =>
    intro hno hst
    have := hS (fun e he => hno e (by simp [he])) hst
    simpa [last_spawned_append, last_spawned] using this
  | get_entry th k task es st =>
    intro hno hst
    have := hS (fun e he => hno e (by simp [he])) hst
    simpa [last_spawned_append, last_spawned] using this
  | init_skip p size h => simpa [sized] using hS
  | init_spawn th q size h =>
    intro _ _
    simp [last_spawned_append, last_spawned]
  | init_unwind th q size h =>
    intro hno _
    exact absurd rfl (hno Event.thrown (by simp))
  | stop_skip th q =>
    intro _ hst
    simp at hst
  | stop_enter th q => simpa [sized] using hS
  | resume_wait th st =>
    intro _ hst
    simp at hst
  | resume_join p j h => simpa [sized] using hS
  | resume_clear th q st j h =>
    intro _ hst
    simp only [protocol] at hP
    simp only at hst
    rw [hP.1] at hst
    exact absurd hst (by simp)
  | exit_true th q c i h => simpa using sized_worker i Thread.finished [] hS
  | exit_false th q c i h => simpa using sized_worker i Thread.at_get_task [] hS
  | take_empty th st c i h => simpa using sized_worker i Thread.at_rest [] hS
  | take_null th k es st c i h => simpa using sized_worker i Thread.at_rest [] hS
  | take_task th k t es st c i h => simpa using sized_worker i (Thread.at_task t) [] hS
  | call th q st c i t h => simpa using sized_worker i Thread.at_get_task [t] hS
  | wake th q st c i h hp => simpa using sized_worker i Thread.at_exit [] hS

theorem protocol_boot : protocol (boot α, []) := by
  simp [protocol, boot, members]

theorem protocol_run {acts : List (Action α)} {c c1 : Sys α × List (Event α)}
    (hP : protocol c) (hr : run acts c = some c1) : protocol c1 :=
  run_invariant (fun _ c => protocol c)
    (fun _ _ _ _ _ _ hP hm => protocol_step hP hm) acts [] c c1 hP hr

theorem sized_run {acts : List (Action α)} {c c1 : Sys α × List (Event α)}
    (hP : protocol c) (hS : sized c) (hr : run acts c = some c1) : sized c1 :=
  (run_invariant (fun _ c => protocol c ∧ sized c)
    (fun _ _ _ _ _ _ hPS hm => ⟨protocol_step hPS.1 hm, sized_step hPS.1 hPS.2 hm⟩)
    acts [] c c1 ⟨hP, hS⟩ hr).2

end protocol

/-! ## Every submitted body is in exactly one place -/

section conservation
variable {α : Type}

theorem submitted_append (a b : List (Action α)) :
    submitted (a ++ b) = submitted a ++ submitted b := by
  induction a with
  | nil => rfl
  | cons x xs ih =>
    cases x with
    | add_task task priority => cases task <;> simp [submitted, ih]
    | _ => simp [submitted, ih]

theorem submissions_append (a b : List (Action α)) :
    submissions (a ++ b) = submissions a ++ submissions b := by
  induction a with
  | nil => rfl
  | cons x xs ih => cases x <;> simp [submissions, ih]

theorem executed_append (a b : List (Event α)) :
    executed (a ++ b) = executed a ++ executed b := by
  induction a with
  | nil => rfl
  | cons x xs ih => cases x <;> simp [executed, ih]

theorem taken_append (a b : List (Event α)) : taken (a ++ b) = taken a ++ taken b := by
  induction a with
  | nil => rfl
  | cons x xs ih =>
    cases x with
    | returned task => cases task <;> simp [taken, ih]
    | _ => simp [taken, ih]

theorem in_flight_append (a b : List (Thread α)) :
    in_flight (a ++ b) = in_flight a ++ in_flight b := by
  induction a with
  | nil => rfl
  | cons x xs ih => cases x <;> simp [in_flight, ih]

theorem set_split {th : List (Thread α)} {i : Nat} {t : Thread α} (t1 : Thread α)
    (hi : th[i]? = some t) :
    ∃ l1 l2, th = l1 ++ t :: l2 ∧ th.set i t1 = l1 ++ t1 :: l2 := by
  induction th generalizing i with
  | nil => simp at hi
  | cons x xs ih =>
    cases i with
    | zero =>
      simp at hi
      subst hi
      exact ⟨[], xs, rfl, rfl⟩
    | succ n =>
      simp at hi
      obtain ⟨l1, l2, h1, h2⟩ := ih hi
      exact ⟨x :: l1, l2, by simp [h1], by simp [h2]⟩

theorem in_flight_set {th : List (Thread α)} {i : Nat} {t : Thread α} (t1 : Thread α)
    (hi : th[i]? = some t) :
    (in_flight (th.set i t1) : Multiset α) + (in_flight [t] : Multiset α) =
      (in_flight th : Multiset α) + (in_flight [t1] : Multiset α) := by
  obtain ⟨l1, l2, h1, h2⟩ := set_split t1 hi
  rw [h2, h1]
  have e1 : in_flight (l1 ++ t1 :: l2) = in_flight l1 ++ (in_flight [t1] ++ in_flight l2) := by
    rw [in_flight_append, ← in_flight_append [t1] l2]
    rfl
  have e2 : in_flight (l1 ++ t :: l2) = in_flight l1 ++ (in_flight [t] ++ in_flight l2) := by
    rw [in_flight_append, ← in_flight_append [t] l2]
    rfl
  rw [e1, e2]
  simp only [← Multiset.coe_add]
  abel

theorem in_flight_finished_or_idle {th : List (Thread α)}
    (h : ∀ t ∈ th, t = Thread.finished ∨ t = Thread.at_exit ∨ t = Thread.at_get_task ∨
      t = Thread.at_rest) : in_flight th = [] := by
  induction th with
  | nil => rfl
  | cons x xs ih =>
    have hxs := ih (fun t ht => h t (by simp [ht]))
    rcases h x (by simp) with hx | hx | hx | hx <;> subst hx <;> simpa [in_flight] using hxs

theorem queued_emplace (priority : Nat) (task : Task α) (p : Pool α) :
    (queued (add_task task priority p) : Multiset α) =
      (queued p : Multiset α) + (submitted [Action.add_task task priority] : Multiset α) := by
  have hp : (queued (add_task task priority p)).Perm
      (List.filterMap Prod.snd ((priority, task) :: p.tasks)) :=
    (emplace_perm priority task p.tasks).filterMap _
  rw [Multiset.coe_eq_coe.2 hp]
  cases task with
  | none => simp [submitted, queued]
  | some t =>
    simp only [submitted, queued, List.filterMap_cons, Multiset.coe_add]
    rw [Multiset.coe_eq_coe]
    simpa using (List.perm_append_singleton t (List.filterMap Prod.snd p.tasks)).symm

end conservation

section conservation_steps
variable {α : Type}

theorem executed_map (b : List α) : executed (b.map Event.executed) = b := by
  induction b with
  | nil => rfl
  | cons x xs ih => simp [executed, ih]

theorem taken_map (b : List α) : taken (b.map (Event.executed : α → Event α)) = [] := by
  induction b with
  | nil => rfl
  | cons x xs ih => simp [taken, ih]

theorem conserved_worker {h : List (Action α)} {th : List (Thread α)}
    {q q1 : List (Nat × Task α)} {st : Bool} {c : Caller} {tr : List (Event α)} {i : Nat}
    {t : Thread α} (t1 : Thread α) (b : List α) (a : Action α) (hi : th[i]? = some t)
    (ha : submitted [a] = [])
    (hb : (queued ⟨th, q, st⟩ : Multiset α) + (in_flight [t] : Multiset α) =
      (queued ⟨th, q1, st⟩ : Multiset α) + (in_flight [t1] : Multiset α) + (b : Multiset α))
    (hC : conserved h (⟨⟨th, q, st⟩, c⟩, tr)) :
    conserved (h ++ [a]) (⟨⟨th.set i t1, q1, st⟩, c⟩, tr ++ b.map Event.executed) := by
  have hx := executed_map b
  have hy := taken_map b
  have hs := in_flight_set t1 hi
  simp only [conserved, submitted_append, executed_append, taken_append, ha, hx, hy,
    List.append_nil, ← Multiset.coe_add, queued] at hC hb ⊢
  rw [hC]
  have key : ∀ (Q Q1 F F1 T T1 B E K : Multiset α), Q + T = Q1 + T1 + B → F1 + T = F + T1 →
      Q + F + E + K = Q1 + F1 + (E + B) + K := by
    intro Q Q1 F F1 T T1 B E K h1 h2
    have h3 : (Q + F + E + K) + (T + T1) = (Q1 + F1 + (E + B) + K) + (T + T1) := by
      calc (Q + F + E + K) + (T + T1) = (Q + T) + (F + T1) + E + K := by abel
        _ = (Q1 + T1 + B) + (F1 + T) + E + K := by rw [h1, h2]
        _ = (Q1 + F1 + (E + B) + K) + (T + T1) := by abel
    exact add_right_cancel h3
  exact key _ _ _ _ _ _ _ _ _ hb hs

theorem conserved_step {h : List (Action α)} {a : Action α} {s s1 : Sys α}
    {tr ev : List (Event α)} (hP : protocol (s, tr)) (hC : conserved h (s, tr))
    (hm : Moves a s s1 ev) : conserved (h ++ [a]) (s1, tr ++ ev) := by
  cases hm with
  | add p task priority =>
    simp only [conserved, submitted_append, List.append_nil, ← Multiset.coe_add] at hC ⊢
    rw [queued_emplace, hC]
    simp only [add_task]
    abel
  | get_empty th st =>
    simpa [conserved, submitted_append, executed_append, taken_append, submitted, executed,
      taken, queued] using hC
  | get_entry th k task es st =>
    cases task with
    | none =>
      simpa [conserved, submitted_append, executed_append, taken_append, submitted, executed,
        taken, queued] using hC
    | some t =>
      simp only [conserved, submitted_append, executed_append, taken_append, submitted,
        executed, taken, queued, List.append_nil, List.filterMap_cons,
        ← Multiset.coe_add, ← Multiset.cons_coe, ← Multiset.singleton_add] at hC ⊢
      rw [hC]
      simp only [Multiset.coe_nil, add_zero, ← Multiset.singleton_add]
      abel
  | init_skip p size hs =>
    simpa [conserved, submitted_append, submitted] using hC
  | init_spawn th q size hs =>
    have hth : th = [] := by simpa [protocol] using hP
    subst hth
    have hr : in_flight (List.replicate size (Thread.at_exit : Thread α)) = [] :=
      in_flight_finished_or_idle (fun t ht => by
        rw [List.mem_replicate] at ht
        exact Or.inr (Or.inl ht.2))
    simpa [conserved, submitted_append, executed_append, taken_append, submitted, executed,
      taken, queued, hr, in_flight] using hC
  | init_unwind th q size hs =>
    simpa [conserved, submitted_append, executed_append, taken_append, submitted, executed,
      taken, queued] using hC
  | stop_skip th q => simpa [conserved, submitted_append, submitted] using hC
  | stop_enter th q => simpa [conserved, submitted_append, submitted] using hC
  | resume_wait th st => simpa [conserved, submitted_append, submitted, queued] using hC
  | resume_join p j hj => simpa [conserved, submitted_append, submitted] using hC
  | resume_clear th q st j hj =>
    have hall : ∀ t ∈ th, t = Thread.finished ∨ t = Thread.at_exit ∨ t = Thread.at_get_task ∨
        t = Thread.at_rest := by
      intro t ht
      obtain ⟨k, hk, rfl⟩ := List.getElem_of_mem ht
      have hlen : th.length ≤ j := by simpa using hj
      simp only [protocol] at hP
      exact Or.inl (hP.2.2 k (by omega) _ (List.getElem?_eq_getElem hk))
    simpa [conserved, submitted_append, submitted, queued, in_flight_finished_or_idle hall,
      in_flight] using hC
  | exit_true th q c i hi =>
    simpa using conserved_worker Thread.finished [] (Action.worker i) hi rfl
      (by simp [in_flight]) hC
  | exit_false th q c i hi =>
    simpa using conserved_worker Thread.at_get_task [] (Action.worker i) hi rfl
      (by simp [in_flight]) hC
  | take_empty th st c i hi =>
    simpa using conserved_worker Thread.at_rest [] (Action.worker i) hi rfl
      (by simp [in_flight]) hC
  | take_null th k es st c i hi =>
    simpa using conserved_worker Thread.at_rest [] (Action.worker i) hi rfl
      (by simp [in_flight, queued]) hC
  | take_task th k t es st c i hi =>
    simpa using conserved_worker (Thread.at_task t) [] (Action.worker i) hi rfl
      (by
        simp only [in_flight, queued, List.filterMap_cons, Multiset.coe_nil, add_zero,
          ← Multiset.cons_coe, ← Multiset.singleton_add]
        abel) hC
  | call th q st c i t hi =>
    simpa using conserved_worker Thread.at_get_task [t] (Action.worker i) hi rfl
      (by simp [in_flight]) hC
  | wake th q st c i hi hp =>
    simpa using conserved_worker Thread.at_exit [] (Action.worker i) hi rfl
      (by simp [in_flight]) hC

theorem conserved_boot : conserved ([] : List (Action α)) (boot α, []) := by
  simp [conserved, boot, members, submitted, queued, in_flight, executed, taken]

/-- Protocol invariant and conservation hold along every execution. -/
theorem sound_run {acts h : List (Action α)} {c c1 : Sys α × List (Event α)}
    (hP : protocol c) (hC : conserved h c) (hr : run acts c = some c1) :
    protocol c1 ∧ conserved (h ++ acts) c1 :=
  run_invariant (fun h c => protocol c ∧ conserved h c)
    (fun _ _ _ _ _ _ hPC hm => ⟨protocol_step hPC.1 hm, conserved_step hPC.1 hPC.2 hm⟩)
    acts h c c1 ⟨hP, hC⟩ hr

end conservation_steps

/-! ## The queue along an execution -/

section queue_steps
variable {α : Type}

theorem queue_inv_tail {h : List (Action α)} {a : Action α} {e : Nat × Task α}
    {es : List (Nat × Task α)} (ha : submissions [a] = [])
    (hq : ordered (e :: es) ∧ ∀ r, tier r (e :: es) <:+ tier r (submissions h)) :
    ordered es ∧ ∀ r, tier r es <:+ tier r (submissions (h ++ [a])) := by
  refine ⟨(List.pairwise_cons.1 hq.1).2, fun r => ?_⟩
  rw [submissions_append, ha, List.append_nil]
  exact ((List.suffix_cons e es).filter _).trans (hq.2 r)

theorem queue_inv_step {h : List (Action α)} {a : Action α} {s s1 : Sys α}
    {tr ev : List (Event α)} (hQ : queue_inv h (s, tr)) (hm : Moves a s s1 ev) :
    queue_inv (h ++ [a]) (s1, tr ++ ev) := by
  cases hm with
  | add p task priority =>
    refine ⟨emplace_ordered _ _ _ hQ.1, fun r => ?_⟩
    have h1 : tier r (submissions (h ++ [Action.add_task task priority])) =
        tier r (submissions h) ++ (if priority = r then [(priority, task)] else []) := by
      rw [submissions_append]
      by_cases hr : priority = r <;> simp [submissions, tier, hr]
    show tier r (multimap_emplace priority task p.tasks) <:+ _
    rw [h1, emplace_tier _ _ _ _ hQ.1]
    obtain ⟨pre, hpre⟩ := hQ.2 r
    exact ⟨pre, by rw [← List.append_assoc, hpre]⟩
  | get_entry th k task es st => exact queue_inv_tail rfl hQ
  | take_null th k es st c i hi => exact queue_inv_tail rfl hQ
  | take_task th k t es st c i hi => exact queue_inv_tail rfl hQ
  | _ => simpa [queue_inv, submissions_append, submissions] using hQ

theorem queue_inv_run {n : Nat} {acts : List (Action α)} {c : Sys α × List (Event α)}
    (hr : created n acts = some c) : queue_inv acts c := by
  have := run_invariant (fun h c => queue_inv h c)
    (fun _ _ _ _ _ _ hQ hm => queue_inv_step hQ hm) (Action.init n :: acts) [] (boot α, []) c
    (by simp [queue_inv, boot, members, ordered, tier, submissions]) hr
  simpa [queue_inv, submissions] using this

theorem mem_submissions {h : List (Action α)} {c : Sys α × List (Event α)}
    (hQ : queue_inv h c) : ∀ e ∈ c.1.pool.tasks, e ∈ submissions h := by
  intro e he
  have h1 : e ∈ tier e.1 c.1.pool.tasks := by simp [tier, he]
  have h2 := (hQ.2 e.1).subset h1
  exact (List.mem_filter.1 h2).1

theorem ordered_split (d : Nat) (q : List (Nat × Task α)) (hq : ordered q)
    (hd : ∀ e ∈ q, e.1 ≤ d) :
    q = q.filter (fun e => decide (e.1 < d)) ++ tier d q := by
  induction q with
  | nil => rfl
  | cons e es ih =>
    have hp := List.pairwise_cons.1 hq
    have hes := ih hp.2 (fun x hx => hd x (by simp [hx]))
    by_cases he : e.1 < d
    · have hne : ¬ e.1 = d := by omega
      simp only [tier, List.filter_cons, he, decide_True, if_true, beq_iff_eq, hne,
        if_false, List.cons_append]
      exact congrArg _ hes
    · have hed : e.1 = d := le_antisymm (hd e (by simp)) (by omega)
      have h1 : (e :: es).filter (fun x => decide (x.1 < d)) = [] := by
        rw [List.filter_eq_nil_iff]
        intro x hx
        simp only [List.mem_cons] at hx
        rcases hx with rfl | hx
        · simpa using he
        · have := hp.1 x hx
          simp
          omega
      have h2 : tier d (e :: es) = e :: es := by
        unfold tier
        rw [List.filter_eq_self]
        intro x hx
        simp only [List.mem_cons] at hx
        rcases hx with rfl | hx
        · simpa using hed
        · have h3 := hp.1 x hx
          have h4 := hd x (by simp [hx])
          simp
          omega
      rw [h1, h2]
      rfl

end queue_steps

/-! ## Submitting a batch and draining it -/

section batch
variable {α : Type}

theorem tier_cons {β : Type} (r : Nat) (x : Nat × β) (l : List (Nat × β)) :
    tier r (x :: l) = (if x.1 = r then [x] else []) ++ tier r l := by
  by_cases h : x.1 = r <;> simp [tier, h]

theorem mem_tier_self {β : Type} {x : Nat × β} {l : List (Nat × β)} (h : x ∈ l) :
    x ∈ tier x.1 l := by
  simp [tier, h]

theorem stably_sorted_unique {β : Type} :
    ∀ (a b : List (Nat × β)), ordered a → ordered b → (∀ r, tier r a = tier r b) → a = b := by
  intro a
  induction a with
  | nil =>
    intro b _ _ h
    cases b with
    | nil => rfl
    | cons y ys =>
      have := h y.1
      rw [tier_cons] at this
      simp [tier] at this
  | cons x xs ih =>
    intro b ha hb h
    cases b with
    | nil =>
      have := h x.1
      rw [tier_cons] at this
      simp [tier] at this
    | cons y ys =>
      have hpa := List.pairwise_cons.1 ha
      have hpb := List.pairwise_cons.1 hb
      have hxy : x.1 = y.1 := by
        have h1 : x ∈ y :: ys := by
          have : x ∈ tier x.1 (y :: ys) := by
            rw [← h x.1]
            exact mem_tier_self (by simp)
          exact (List.mem_filter.1 this).1
        have h2 : y ∈ x :: xs := by
          have : y ∈ tier y.1 (x :: xs) := by
            rw [h y.1]
            exact mem_tier_self (by simp)
          exact (List.mem_filter.1 this).1
        have h3 : y.1 ≤ x.1 := by
          rcases List.mem_cons.1 h1 with e | e
          · rw [e]
          · exact hpb.1 x e
        have h4 : x.1 ≤ y.1 := by
          rcases List.mem_cons.1 h2 with e | e
          · rw [e]
          · exact hpa.1 y e
        omega
      have hhead : x = y := by
        have := h x.1
        rw [tier_cons, tier_cons] at this
        simp only [hxy, if_true, List.singleton_append] at this
        exact (List.cons.inj this).1
      subst hhead
      refine congrArg _ (ih ys hpa.2 hpb.2 (fun r => ?_))
      have := h r
      rw [tier_cons, tier_cons] at this
      exact List.append_cancel_left this

theorem add_tasks_frame (es : List (Nat × Task α)) (p : Pool α) :
    (add_tasks es p).threads = p.threads ∧ (add_tasks es p).stop = p.stop := by
  induction es generalizing p with
  | nil => exact ⟨rfl, rfl⟩
  | cons e es ih => simpa [add_tasks, add_task] using ih (add_task e.2 e.1 p)

theorem add_tasks_sorted (es : List (Nat × Task α)) (p : Pool α) (hp : ordered p.tasks) :
    ordered (add_tasks es p).tasks ∧
      (∀ r, tier r (add_tasks es p).tasks = tier r p.tasks ++ tier r es) ∧
      (add_tasks es p).tasks.Perm (p.tasks ++ es) := by
  induction es generalizing p with
  | nil => simp [add_tasks, hp, tier]
  | cons e es ih =>
    obtain ⟨h1, h2, h3⟩ := ih (add_task e.2 e.1 p) (emplace_ordered _ _ _ hp)
    refine ⟨h1, fun r => ?_, ?_⟩
    · simp only [add_tasks]
      rw [h2 r]
      show tier r (multimap_emplace e.1 e.2 p.tasks) ++ _ = _
      rw [emplace_tier _ _ _ _ hp, tier_cons, List.append_assoc]
    · simp only [add_tasks]
      refine h3.trans ?_
      show (multimap_emplace e.1 e.2 p.tasks ++ es).Perm _
      refine ((emplace_perm e.1 e.2 p.tasks).append_right es).trans ?_
      simpa using (List.perm_middle).symm

theorem get_tasks_all (th : List (Thread α)) (st : Bool) (q : List (Nat × Task α)) :
    get_tasks q.length ⟨th, q, st⟩ = (q.map Prod.snd, ⟨th, [], st⟩) := by
  induction q with
  | nil => rfl
  | cons e es ih => simp [get_tasks, get_task, ih]

theorem drain_loop_all (th : List (Thread α)) (st : Bool) :
    ∀ (q : List (Nat × Task α)) (fuel : Nat), (∀ e ∈ q, e.2 ≠ none) → q.length < fuel →
      (drain_loop fuel ⟨th, q, st⟩).1.map some = q.map Prod.snd ∧
        (drain_loop fuel ⟨th, q, st⟩).2 = ⟨th, [], st⟩ := by
  intro q
  induction q with
  | nil =>
    intro fuel _ hf
    cases fuel with
    | zero => simp at hf
    | succ n => simp [drain_loop, get_task]
  | cons e es ih =>
    intro fuel hn hf
    cases fuel with
    | zero => simp at hf
    | succ n =>
      obtain ⟨k, task⟩ := e
      cases task with
      | none => exact absurd rfl (hn (k, none) (by simp))
      | some t =>
        have := ih n (fun x hx => hn x (by simp [hx])) (by simpa using hf)
        simp [drain_loop, get_task, this.1, this.2]

end batch

/-! ## The queue contract -/

theorem default_priority_eq (w : Nat) : default_priority w = 2 ^ w - 1 := by
  unfold default_priority
  have hpos : 0 < 2 ^ w := Nat.two_pow_pos w
  have hc : ((2 : Int) ^ w) = ((2 ^ w : Nat) : Int) := by push_cast; rfl
  rw [hc]
  generalize 2 ^ w = m at hpos
  have h1 : (-1 : Int) % (m : Int) = (m : Int) - 1 := by
    have : (-1 : Int) = ((m : Int) - 1) + (-1) * (m : Int) := by ring
    rw [this, Int.add_mul_emod_self]
    exact Int.emod_eq_of_lt (by omega) (by omega)
  rw [h1]
  omega

/-- C1: in every state an execution reaches with a non-empty queue, `get_task`
returns the task of the first entry `e`; no queued entry has a smaller
priority than `e`; among the submissions of that priority `e` comes before all
the ones still queued (`earlier` holds those taken before); the queue loses
exactly `e`, the rest keeps its order, and `threads` and `stop` are unchanged. -/
theorem get_task_takes_least_earliest {α : Type} (n : Nat) (acts : List (Action α))
    (s : Sys α) (tr : List (Event α)) (hr : created n acts = some (s, tr))
    (hne : s.pool.tasks ≠ []) :
    ∃ e rest earlier, s.pool.tasks = e :: rest ∧
      get_task s.pool = (e.2, ⟨s.pool.threads, rest, s.pool.stop⟩) ∧
      (∀ x ∈ rest, e.1 ≤ x.1) ∧
      tier e.1 (submissions acts) = earlier ++ e :: tier e.1 rest := by
  have hQ := queue_inv_run hr
  obtain ⟨⟨th, q, st⟩, c⟩ := s
  cases q with
  | nil => exact absurd rfl hne
  | cons e rest =>
    obtain ⟨earlier, he⟩ := hQ.2 e.1
    refine ⟨e, rest, earlier, rfl, rfl, (List.pairwise_cons.1 hQ.1).1, ?_⟩
    have ht : tier e.1 (e :: rest) = e :: tier e.1 rest := by
      rw [tier_cons]
      simp
    rw [← ht]
    exact he.symm

/-- Witness of C1: a worker has taken the entry of priority 1 submitted first;
the next `get_task` returns the second one, ahead of priorities 5 and 7. -/
theorem get_task_takes_least_earliest_witness :
    created 1 [Action.add_task (some 'a') 5, Action.add_task (some 'b') 1,
        Action.add_task (some 'c') 7, Action.add_task (some 'd') 1,
        Action.worker 0, Action.worker 0] =
      some (⟨⟨[Thread.at_task 'b'], [(1, some 'd'), (5, some 'a'), (7, some 'c')], false⟩,
        Caller.idle⟩, [Event.spawned 1]) ∧
    ∃ e rest earlier,
      [(1, some 'd'), (5, some 'a'), (7, some 'c')] = e :: rest ∧
      get_task (⟨[Thread.at_task 'b'], [(1, some 'd'), (5, some 'a'), (7, some 'c')], false⟩ :
          Pool Char) = (e.2, ⟨[Thread.at_task 'b'], rest, false⟩) ∧
      (∀ x ∈ rest, e.1 ≤ x.1) ∧
      tier e.1 (submissions [Action.add_task (some 'a') 5, Action.add_task (some 'b') 1,
        Action.add_task (some 'c') 7, Action.add_task (some 'd') 1,
        Action.worker 0, Action.worker 0]) = earlier ++ e :: tier e.1 rest :=
  ⟨by decide, get_task_takes_least_earliest 1 _ _ _
    (show created 1 [Action.add_task (some 'a') 5, Action.add_task (some 'b') 1,
        Action.add_task (some 'c') 7, Action.add_task (some 'd') 1,
        Action.worker 0, Action.worker 0] =
      some (⟨⟨[Thread.at_task 'b'], [(1, some 'd'), (5, some 'a'), (7, some 'c')], false⟩,
        Caller.idle⟩, [Event.spawned 1]) by decide) (by simp)⟩

/-- C2: after any batch of `add_task` calls on an empty queue, the queue is the
batch stably sorted by priority (and the only list that is): smaller priority
values first, equal priorities in submission order.  As many `get_task ()`
calls as there were submissions return the tasks of that queue from front to
back and leave it empty, so that the next call returns the empty task.  When
every task of the batch is callable, the worker loop
`while ((task = get_task ())) task ();` returns the same tasks in the same
order, leaves the queue empty and needs no more fuel than one step per entry.  Priorities 5, 1, 3 come out as
1, 3, 5; three tasks of one priority come out in submission order. -/
theorem drain_is_stable_sort {α : Type} (es : List (Nat × Task α)) (th : List (Thread α))
    (st : Bool) :
    stably_sorted es (add_tasks es ⟨th, [], st⟩).tasks ∧
      (∀ out, stably_sorted es out → out = (add_tasks es ⟨th, [], st⟩).tasks) ∧
      (add_tasks es ⟨th, [], st⟩).tasks.Perm es ∧
      ((get_tasks es.length (add_tasks es ⟨th, [], st⟩)).1 =
          (add_tasks es ⟨th, [], st⟩).tasks.map Prod.snd ∧
        (get_tasks es.length (add_tasks es ⟨th, [], st⟩)).2 = ⟨th, [], st⟩ ∧
        get_task (get_tasks es.length (add_tasks es ⟨th, [], st⟩)).2 =
          (none, ⟨th, [], st⟩)) ∧
      ((∀ e ∈ es, e.2 ≠ none) →
        (drain (add_tasks es ⟨th, [], st⟩)).1.map some =
            (add_tasks es ⟨th, [], st⟩).tasks.map Prod.snd ∧
          (drain (add_tasks es ⟨th, [], st⟩)).2 = ⟨th, [], st⟩ ∧
          ∀ fuel, es.length < fuel →
            drain_loop fuel (add_tasks es ⟨th, [], st⟩) = drain (add_tasks es ⟨th, [], st⟩)) ∧
      (drain (add_tasks [(5, some 5), (1, some 1), (3, some 3)] (members Nat))).1 = [1, 3, 5] ∧
      (drain (add_tasks [(2, some 'A'), (2, some 'B'), (2, some 'C')] (members Char))).1 =
        ['A', 'B', 'C'] := by
  obtain ⟨h1, h2, h3⟩ := add_tasks_sorted es ⟨th, [], st⟩ (by simp [ordered])
  obtain ⟨h4, h5⟩ := add_tasks_frame es ⟨th, [], st⟩
  have hlen : (add_tasks es ⟨th, [], st⟩).tasks.length = es.length := by
    rw [h3.length_eq]
    simp
  have hshape : add_tasks es ⟨th, [], st⟩ = ⟨th, (add_tasks es ⟨th, [], st⟩).tasks, st⟩ := by
    cases hp : add_tasks es ⟨th, [], st⟩
    rw [hp] at h4 h5
    simp at h4 h5
    simp [h4, h5]
  have hsorted : stably_sorted es (add_tasks es ⟨th, [], st⟩).tasks :=
    ⟨h1, fun r => by simpa [tier] using h2 r⟩
  refine ⟨hsorted, ?_, by simpa using h3, ?_, ?_, by decide, by decide⟩
  · intro out ho
    exact stably_sorted_unique _ _ ho.1 h1 (fun r => by rw [ho.2 r, hsorted.2 r])
  · have hg : get_tasks es.length (add_tasks es ⟨th, [], st⟩) =
        ((add_tasks es ⟨th, [], st⟩).tasks.map Prod.snd, ⟨th, [], st⟩) := by
      rw [← hlen, hshape]
      exact get_tasks_all th st _
    rw [hg]
    exact ⟨rfl, rfl, rfl⟩
  · intro hsome
    have hmem : ∀ e ∈ (add_tasks es ⟨th, [], st⟩).tasks, e.2 ≠ none := by
      intro e he
      exact hsome e (by simpa using h3.mem_iff.1 he)
    have hdrain : ∀ fuel, es.length < fuel →
        (drain_loop fuel (add_tasks es ⟨th, [], st⟩)).1.map some =
          (add_tasks es ⟨th, [], st⟩).tasks.map Prod.snd ∧
        (drain_loop fuel (add_tasks es ⟨th, [], st⟩)).2 = ⟨th, [], st⟩ := by
      intro fuel hf
      rw [hshape]
      exact drain_loop_all th st _ fuel hmem (by rw [hlen]; exact hf)
    have hd : drain (add_tasks es ⟨th, [], st⟩) =
        drain_loop (es.length + 1) (add_tasks es ⟨th, [], st⟩) := by
      unfold drain
      rw [hlen]
    have b := hdrain _ (Nat.lt_succ_self es.length)
    refine ⟨by rw [hd]; exact b.1, by rw [hd]; exact b.2, ?_⟩
    intro fuel hf
    rw [hd]
    have a := hdrain fuel hf
    refine Prod.ext ?_ (a.2.trans b.2.symm)
    exact List.map_injective_iff.2 (Option.some_injective α) (a.1.trans b.1.symm)

/-- Witness of C2: four callable submissions with a tie at priority 2. -/
theorem drain_is_stable_sort_witness :
    (add_tasks [(2, some 'A'), (0, some 'B'), (2, some 'C'), (1, some 'D')]
        (⟨[], [], true⟩ : Pool Char)).tasks =
      [(0, some 'B'), (1, some 'D'), (2, some 'A'), (2, some 'C')] ∧
    (drain (add_tasks [(2, some 'A'), (0, some 'B'), (2, some 'C'), (1, some 'D')]
        (⟨[], [], true⟩ : Pool Char))).1 = ['B', 'D', 'A', 'C'] ∧
    (drain (add_tasks [(2, some 'A'), (0, some 'B'), (2, some 'C'), (1, some 'D')]
        (⟨[], [], true⟩ : Pool Char))).1.map some =
      (add_tasks [(2, some 'A'), (0, some 'B'), (2, some 'C'), (1, some 'D')]
        (⟨[], [], true⟩ : Pool Char)).tasks.map Prod.snd :=
  ⟨by decide, by decide,
    ((drain_is_stable_sort [(2, some 'A'), (0, some 'B'), (2, some 'C'), (1, some 'D')]
      [] true).2.2.2.2.1 (by decide)).1⟩

/-- C3: the default priority `(Size) - 1` is `2 ^ w - 1`, the largest value of a
`w`-bit `Size`.  In every state an execution with `w`-bit priorities reaches,
the queue is its entries of smaller priority followed by its default-priority
entries, the latter in submission order; a further default submission goes to
the very back.  So `get_task` hands out a default-priority task after every
queued task of smaller priority, submitted before or after it.  With `X` at 0,
`Y` at the default and `Z` at 0 the order is `X`, `Z`, `Y`. -/
theorem default_priority_is_last {α : Type} (w n : Nat) (acts : List (Action α))
    (s : Sys α) (tr : List (Event α)) (hr : created n acts = some (s, tr))
    (hw : ∀ e ∈ submissions acts, e.1 < 2 ^ w) :
    default_priority w = 2 ^ w - 1 ∧
      (∀ priority, priority < 2 ^ w → priority ≤ default_priority w) ∧
      s.pool.tasks = s.pool.tasks.filter (fun e => decide (e.1 < default_priority w)) ++
        tier (default_priority w) s.pool.tasks ∧
      tier (default_priority w) s.pool.tasks <:+
        tier (default_priority w) (submissions acts) ∧
      (∀ task, (add_task_default w task s.pool).tasks =
        s.pool.tasks ++ [(default_priority w, task)]) ∧
      (∀ x y z : α, (drain (add_task (some z) 0 (add_task_default 64 (some y)
        (add_task (some x) 0 (members α))))).1 = [x, z, y]) := by
  have hQ := queue_inv_run hr
  have hd := default_priority_eq w
  have hle : ∀ e ∈ s.pool.tasks, e.1 ≤ default_priority w := by
    intro e he
    have := hw e (mem_submissions hQ e he)
    omega
  refine ⟨hd, fun k hk => by omega, ordered_split _ _ hQ.1 hle, hQ.2 _, ?_, ?_⟩
  · intro task
    obtain ⟨l1, l2, h1, h2, -, h4⟩ := emplace_split (default_priority w) task s.pool.tasks
    cases l2 with
    | nil =>
      show multimap_emplace (default_priority w) task s.pool.tasks = _
      rw [h2, h1, List.append_nil]
    | cons e es =>
      have h5 := h4 e rfl
      have h6 := hle e (by rw [h1]; simp)
      omega
  · intro x y z
    have hlt : 0 < default_priority 64 := by decide
    simp [drain, drain_loop, get_task, add_task, add_task_default, members, multimap_emplace,
      hlt]

/-- Witness of C3 on a 64-bit `Size`: `Y` at the default priority is queued
behind `X` and `Z` at priority 0, before and after taking `X`. -/
theorem default_priority_is_last_witness :
    created 1 [Action.add_task (some 'X') 0, Action.add_task (some 'Y') (default_priority 64),
        Action.add_task (some 'Z') 0, Action.worker 0, Action.worker 0] =
      some (⟨⟨[Thread.at_task 'X'], [(0, some 'Z'), (2 ^ 64 - 1, some 'Y')], false⟩,
        Caller.idle⟩, [Event.spawned 1]) ∧
    (default_priority 64 = 2 ^ 64 - 1 ∧
      (∀ priority, priority < 2 ^ 64 → priority ≤ default_priority 64) ∧
      [(0, some 'Z'), (2 ^ 64 - 1, some 'Y')] =
        [(0, some 'Z'), (2 ^ 64 - 1, some 'Y')].filter
          (fun e => decide (e.1 < default_priority 64)) ++
        tier (default_priority 64) [(0, some 'Z'), (2 ^ 64 - 1, some 'Y')] ∧
      tier (default_priority 64) [(0, some 'Z'), (2 ^ 64 - 1, some 'Y')] <:+
        tier (default_priority 64) (submissions [Action.add_task (some 'X') 0,
          Action.add_task (some 'Y') (default_priority 64), Action.add_task (some 'Z') 0,
          Action.worker 0, Action.worker 0]) ∧
      (∀ task, (add_task_default 64 task
          (⟨[Thread.at_task 'X'], [(0, some 'Z'), (2 ^ 64 - 1, some 'Y')], false⟩ :
            Pool Char)).tasks =
        [(0, some 'Z'), (2 ^ 64 - 1, some 'Y')] ++ [(default_priority 64, task)]) ∧
      (∀ x y z : Char, (drain (add_task (some z) 0 (add_task_default 64 (some y)
        (add_task (some x) 0 (members Char))))).1 = [x, z, y])) :=
  ⟨by decide, default_priority_is_last 64 1 _ _ _
    (show created 1 [Action.add_task (some 'X') 0,
        Action.add_task (some 'Y') (default_priority 64),
        Action.add_task (some 'Z') 0, Action.worker 0, Action.worker 0] =
      some (⟨⟨[Thread.at_task 'X'], [(0, some 'Z'), (2 ^ 64 - 1, some 'Y')], false⟩,
        Caller.idle⟩, [Event.spawned 1]) by decide)
    (by
      intro e he
      have h0 : default_priority 64 = 2 ^ 64 - 1 := by decide
      simp only [submissions, List.mem_cons, List.mem_nil_iff, or_false] at he
      rcases he with rfl | rfl | rfl <;> simp [h0])⟩

/-- C4: `add_task` is enabled whenever the caller can make a call, the pool
running or stopped, and produces no event; the queue afterwards is the old
queue with the new entry put in at one place (`l1 ++ l2` becomes
`l1 ++ new :: l2`), so it holds the old entries in their old order plus the new
one and is longer by one; `threads` and `stop` are unchanged. -/
theorem add_task_inserts_one {α : Type} (task : Task α) (priority : Nat) (p : Pool α) :
    step (Action.add_task task priority) ⟨p, Caller.idle⟩ =
        some (⟨add_task task priority p, Caller.idle⟩, []) ∧
      (∃ l1 l2, p.tasks = l1 ++ l2 ∧
        (add_task task priority p).tasks = l1 ++ (priority, task) :: l2) ∧
      (add_task task priority p).tasks.Perm ((priority, task) :: p.tasks) ∧
      p.tasks.Sublist (add_task task priority p).tasks ∧
      (add_task task priority p).tasks.length = p.tasks.length + 1 ∧
      (add_task task priority p).stop = p.stop ∧
      (add_task task priority p).threads = p.threads := by
  obtain ⟨l1, l2, h1, h2, -, -⟩ := emplace_split priority task p.tasks
  refine ⟨by simp [step], ⟨l1, l2, h1, h2⟩, emplace_perm _ _ _, ?_, emplace_length _ _ _,
    rfl, rfl⟩
  show p.tasks.Sublist (multimap_emplace priority task p.tasks)
  rw [h2, h1]
  exact (List.Sublist.refl l1).append (List.sublist_cons_self _ l2)

/-- C5: on an empty queue `get_task` returns the empty task and changes
nothing, for the caller and for a worker alike, and it is always enabled (it
never waits); if no queued task is empty, an empty answer means the queue is
empty. -/
theorem get_task_empty_iff {α : Type} (p : Pool α) (hs : ∀ e ∈ p.tasks, e.2 ≠ none) :
    (∀ (th : List (Thread α)) (st : Bool),
        get_task (⟨th, [], st⟩ : Pool α) = (none, ⟨th, [], st⟩)) ∧
      (p.tasks = [] → get_task p = (none, p)) ∧
      ((get_task p).1 = none → p.tasks = []) ∧
      step Action.get_task ⟨p, Caller.idle⟩ =
        some (⟨(get_task p).2, Caller.idle⟩, [Event.returned (get_task p).1]) ∧
      worker_step Thread.at_get_task p ≠ none := by
  obtain ⟨th, q, st⟩ := p
  refine ⟨fun _ _ => rfl, ?_, ?_, by simp [step], ?_⟩
  · intro h
    simp only at h
    subst h
    rfl
  · intro h
    cases q with
    | nil => rfl
    | cons e es => exact absurd h (hs e (by simp))
  · cases q with
    | nil => simp [worker_step, get_task]
    | cons e es =>
      obtain ⟨k, task⟩ := e
      cases task <;> simp [worker_step, get_task]

/-- Witness of C5: a queue with one callable task. -/
theorem get_task_empty_iff_witness :
    (∀ (th : List (Thread Nat)) (st : Bool),
        get_task (⟨th, [], st⟩ : Pool Nat) = (none, ⟨th, [], st⟩)) ∧
      ((⟨[], [(3, some 8)], true⟩ : Pool Nat).tasks = [] →
        get_task (⟨[], [(3, some 8)], true⟩ : Pool Nat) = (none, ⟨[], [(3, some 8)], true⟩)) ∧
      ((get_task (⟨[], [(3, some 8)], true⟩ : Pool Nat)).1 = none →
        (⟨[], [(3, some 8)], true⟩ : Pool Nat).tasks = []) ∧
      step Action.get_task ⟨(⟨[], [(3, some 8)], true⟩ : Pool Nat), Caller.idle⟩ =
        some (⟨(get_task (⟨[], [(3, some 8)], true⟩ : Pool Nat)).2, Caller.idle⟩,
          [Event.returned (get_task (⟨[], [(3, some 8)], true⟩ : Pool Nat)).1]) ∧
      worker_step Thread.at_get_task (⟨[], [(3, some 8)], true⟩ : Pool Nat) ≠ none :=
  get_task_empty_iff ⟨[], [(3, some 8)], true⟩ (by simp)

/-! ## Starting and stopping -/

section lifecycle
variable {α : Type}

theorem created_protocol {n : Nat} {acts : List (Action α)} {c : Sys α × List (Event α)}
    (hr : created n acts = some c) : protocol c :=
  protocol_run protocol_boot hr

theorem stop_flag_run (acts : List (Action α)) :
    ∀ (c c1 : Sys α × List (Event α)), stop_flag c.1 →
      (∀ a ∈ acts, a = Action.resume ∨ ∃ i, a = Action.worker i) →
      run acts c = some c1 → stop_flag c1.1 := by
  induction acts with
  | nil =>
    intro c c1 hf _ hr
    simp only [run, Option.some.injEq] at hr
    subst hr
    exact hf
  | cons a as ih =>
    intro c c1 hf ha hr
    obtain ⟨s, tr⟩ := c
    simp only [run] at hr
    cases hs : step a s with
    | none => simp [hs] at hr
    | some r =>
      obtain ⟨s1, ev⟩ := r
      simp only [hs] at hr
      refine ih (s1, tr ++ ev) c1 ?_ (fun b hb => ha b (by simp [hb])) hr
      have hm := step_moves hs
      have hk := ha a (by simp)
      cases hm with
      | add p task priority => simp at hk
      | get_empty th st => simp at hk
      | get_entry th k task es st => simp at hk
      | init_skip p size h => simp at hk
      | init_spawn th q size h => simp at hk
      | init_unwind th q size h => simp at hk
      | stop_skip th q => simp at hk
      | stop_enter th q => simp at hk
      | resume_wait th st => exact Or.inr rfl
      | resume_join p j h => simpa [stop_flag] using hf
      | resume_clear th q st j h => simpa [stop_flag] using hf
      | exit_true th q c i h => exact Or.inr rfl
      | exit_false th q c i h => simpa [stop_flag] using hf
      | take_empty th st c i h => simpa [stop_flag] using hf
      | take_null th k es st c i h => simpa [stop_flag] using hf
      | take_task th k t es st c i h => simpa [stop_flag] using hf
      | call th q st c i t h => simpa [stop_flag] using hf
      | wake th q st c i h hp => simpa [stop_flag] using hf

end lifecycle

/-- C6: `init (count)` changes nothing and creates no thread when the pool is
running or `count` is 0.  So `init (4)` followed by `init (k)`, for any `k`,
leaves 4 threads; a new pool given 0 is stopped with size 0; and `init (0)` on
any stopped pool an execution reaches leaves it stopped with size 0. -/
theorem init_is_noop {α : Type} (count : Nat) (p : Pool α)
    (h : p.stop = false ∨ count = 0) :
    init count p = p ∧
      step (Action.init count) ⟨p, Caller.idle⟩ = some (⟨p, Caller.idle⟩, []) ∧
      (∀ (k : Nat) (th : List (Thread α)) (q : List (Nat × Task α)),
        init k (init 4 ⟨th, q, true⟩) = init 4 ⟨th, q, true⟩ ∧
          size (init k (init 4 ⟨th, q, true⟩)) = 4) ∧
      (created 0 ([] : List (Action α)) = some (boot α, []) ∧
        (boot α).pool.stop = true ∧ size (boot α).pool = 0) ∧
      (∀ (n : Nat) (acts : List (Action α)) (s : Sys α) (tr : List (Event α)),
        created n acts = some (s, tr) → s.caller = Caller.idle → s.pool.stop = true →
          step (Action.init 0) s = some (s, []) ∧ s.pool.stop = true ∧ size s.pool = 0) := by
  have h0 : init count p = p := by
    rcases h with h | h
    · simp [init, h]
    · simp [init, h]
  refine ⟨h0, ?_, ?_, ⟨rfl, rfl, rfl⟩, ?_⟩
  · rcases h with h | h
    · simp [step, init, h]
    · simp [step, init, h]
  · intro k th q
    simp [init, size]
  · intro n acts s tr hr hidle hstop
    have hP := created_protocol hr
    obtain ⟨⟨th, q, st⟩, c⟩ := s
    simp only at hidle hstop
    subst hidle
    subst hstop
    have hth : th = [] := by simpa [protocol] using hP
    subst hth
    simp [step, init, size]

/-- Witness of C6: `init (3)` on a running pool of four threads. -/
theorem init_is_noop_witness :
    init 3 (⟨List.replicate 4 Thread.at_exit, [(1, some 'a')], false⟩ : Pool Char) =
      ⟨List.replicate 4 Thread.at_exit, [(1, some 'a')], false⟩ :=
  (init_is_noop 3 (⟨List.replicate 4 Thread.at_exit, [(1, some 'a')], false⟩ : Pool Char)
    (Or.inl rfl)).1

/-- Counterexample to C9 as stated, on a 64-bit `Size`: a pool built with 0
workers is given `init ((Size) - 1)`; line 80 clears the flag, `resize` throws
`std::length_error`, and the pool is left running with `size () == 0`, which is
the size argument of no `init` that got past the guard. -/
theorem init_throws_leaves_running_pool_empty :
    created 0 [Action.init_throws (default_priority 64)] =
        some ((⟨⟨[], [], false⟩, Caller.idle⟩ : Sys Char), [Event.thrown]) ∧
      size (⟨[], [], false⟩ : Pool Char) = 0 ∧
      size (⟨[], [], false⟩ : Pool Char) ≠ default_priority 64 ∧
      ¬ (∀ (n : Nat) (acts : List (Action Char)) (s : Sys Char) (tr : List (Event Char)),
          created n acts = some (s, tr) → s.caller = Caller.idle →
          (s.pool.stop = false → last_spawned tr none = some (size s.pool)) ∧
            (s.pool.stop = true → size s.pool = 0)) := by
  refine ⟨by decide, rfl, by decide, fun h => ?_⟩
  have := (h 0 [Action.init_throws (default_priority 64)]
    ⟨⟨[], [], false⟩, Caller.idle⟩ [Event.thrown] (by decide) rfl).1 rfl
  simp [last_spawned] at this

/-- C9, amended: between calls, in every state reached by an execution of a
pool built with any worker count in which no call was left through an
exception: a running pool has as many thread handles as the latest `init`
that created threads asked for, and a stopped pool has none.  A pool built
with 0 is stopped with size 0, one whose constructor returned for `m > 0` runs
with size `m`, and an `init (m)` with `m > 0` that returns on a stopped pool
gives a running pool of size `m`. -/
theorem size_is_last_init {α : Type} (n : Nat) (acts : List (Action α)) (s : Sys α)
    (tr : List (Event α)) (hr : created n acts = some (s, tr))
    (hidle : s.caller = Caller.idle) (hno : ∀ e ∈ tr, e ≠ Event.thrown) :
    (s.pool.stop = false → last_spawned tr none = some (size s.pool)) ∧
      (s.pool.stop = true → size s.pool = 0) ∧
      created 0 ([] : List (Action α)) = some (⟨⟨[], [], true⟩, Caller.idle⟩, []) ∧
      (∀ m, 0 < m → created m ([] : List (Action α)) =
        some (⟨⟨List.replicate m Thread.at_exit, [], false⟩, Caller.idle⟩,
          [Event.spawned m])) ∧
      (s.pool.stop = true → ∀ m, 0 < m →
        ∃ s1, step (Action.init m) s = some (s1, [Event.spawned m]) ∧
          s1.pool.stop = false ∧ size s1.pool = m ∧
          last_spawned (tr ++ [Event.spawned m]) none = some m) := by
  have hP := created_protocol hr
  have hS : sized (s, tr) :=
    sized_run protocol_boot (fun _ h => by simp [boot, members] at h) hr
  obtain ⟨⟨th, q, st⟩, c⟩ := s
  simp only at hidle
  subst hidle
  simp only [protocol] at hP
  refine ⟨fun h => hS hno h, fun h => by simp [size, hP h], rfl, ?_, ?_⟩
  · intro m hm
    have : m ≠ 0 := by omega
    simp [created, run, step, boot, members, init, this]
  · intro hst m hm
    have : m ≠ 0 := by omega
    simp only at hst
    subst hst
    refine ⟨⟨⟨List.replicate m Thread.at_exit, q, false⟩, Caller.idle⟩, ?_, rfl, ?_, ?_⟩
    · simp [step, init, this]
    · simp [size]
    · simp [last_spawned_append, last_spawned]

/-- Witness of C9, amended: built with 2 workers, stopped, started again with
3, no exception on the way. -/
theorem size_is_last_init_witness :
    created 2 [Action.stop, Action.resume, Action.worker 0, Action.worker 1, Action.resume,
        Action.resume, Action.resume, Action.add_task (some 'a') 4, Action.init 3] =
      some (⟨⟨List.replicate 3 Thread.at_exit, [(4, some 'a')], false⟩, Caller.idle⟩,
        [Event.spawned 2, Event.spawned 3]) ∧
    ((false = false → last_spawned [Event.spawned 2, (Event.spawned 3 : Event Char)] none =
        some (size (⟨List.replicate 3 Thread.at_exit, [(4, some 'a')], false⟩ : Pool Char))) ∧
      ((false = true) →
        size (⟨List.replicate 3 Thread.at_exit, [(4, some 'a')], false⟩ : Pool Char) = 0)) :=
  ⟨by decide,
    have h := size_is_last_init 2 [Action.stop, Action.resume, Action.worker 0,
        Action.worker 1, Action.resume, Action.resume, Action.resume,
        Action.add_task (some 'a') 4, Action.init 3]
      ⟨⟨List.replicate 3 Thread.at_exit, [(4, some 'a')], false⟩, Caller.idle⟩
      [Event.spawned 2, Event.spawned 3] (by decide) rfl (by decide)
    ⟨h.1, h.2.1⟩⟩

/-- C10: on a stopped pool `stop ()` returns at once, changes nothing and
does nothing; and after any complete call of `stop ()`, from any state, the
pool is stopped, so a second call right after it returns at once and leaves
the state of the first. -/
theorem stop_is_idempotent {α : Type} (s s1 : Sys α) (tr tr1 : List (Event α))
    (acts : List (Action α)) (hidle : s.caller = Caller.idle)
    (hacts : ∀ a ∈ acts, a = Action.resume ∨ ∃ i, a = Action.worker i)
    (hr : run (Action.stop :: acts) (s, tr) = some (s1, tr1))
    (hret : s1.caller = Caller.idle) :
    (∀ (th : List (Thread α)) (q : List (Nat × Task α)),
        step Action.stop ⟨⟨th, q, true⟩, Caller.idle⟩ =
          some (⟨⟨th, q, true⟩, Caller.idle⟩, [])) ∧
      s1.pool.stop = true ∧
      step Action.stop s1 = some (s1, []) ∧
      run (Action.stop :: acts ++ [Action.stop]) (s, tr) = some (s1, tr1) := by
  have hflag : stop_flag s1 := by
    simp only [run] at hr
    cases hs : step Action.stop s with
    | none => simp [hs] at hr
    | some r =>
      obtain ⟨s2, ev⟩ := r
      simp only [hs] at hr
      refine stop_flag_run acts (s2, tr ++ ev) (s1, tr1) ?_ hacts hr
      have hm := step_moves hs
      cases hm with
      | stop_skip th q => exact Or.inr rfl
      | stop_enter th q => exact Or.inl rfl
  have hstop : s1.pool.stop = true := by
    rcases hflag with h | h
    · rw [hret] at h
      exact absurd h (by simp)
    · exact h
  have hstep : step Action.stop s1 = some (s1, []) := by
    simp [step, hret, hstop]
  refine ⟨fun th q => by simp [step], hstop, hstep, ?_⟩
  rw [run_append (Action.stop :: acts) [Action.stop] (s, tr), hr]
  simp [run, hstep]

/-- Witness of C10: a running pool of one idle worker is stopped. -/
theorem stop_is_idempotent_witness :
    run [Action.stop, Action.resume, Action.worker 0, Action.worker 0, Action.resume,
        Action.resume]
        ((⟨⟨[Thread.at_rest], [], false⟩, Caller.idle⟩ : Sys Char), []) =
      some (⟨⟨[], [], true⟩, Caller.idle⟩, []) ∧
    step Action.stop (⟨⟨[], [], true⟩, Caller.idle⟩ : Sys Char) =
      some (⟨⟨[], [], true⟩, Caller.idle⟩, []) :=
  ⟨by decide,
    (stop_is_idempotent (⟨⟨[Thread.at_rest], [], false⟩, Caller.idle⟩ : Sys Char)
      ⟨⟨[], [], true⟩, Caller.idle⟩ [] []
      [Action.resume, Action.worker 0, Action.worker 0, Action.resume, Action.resume] rfl
      (by simp) (by decide) rfl).2.2.1⟩

section shutdown
variable {α : Type}

/-- The only way `stop ()` returns from a blocking point: the caller is past
the last join, the flag is set, the queue is empty and every thread has
finished. -/
theorem resume_returns {s s1 : Sys α} {tr ev : List (Event α)} (hP : protocol (s, tr))
    (hs : step Action.resume s = some (s1, ev)) (hidle : s1.caller = Caller.idle) :
    s.pool.tasks = [] ∧ s.pool.stop = true ∧ (∀ t ∈ s.pool.threads, t = Thread.finished) ∧
      s1.pool = ⟨[], [], true⟩ ∧ ev = [] := by
  have hm := step_moves hs
  cases hm with
  | resume_wait th st => simp at hidle
  | resume_join p j h => simp at hidle
  | resume_clear th q st j h =>
    simp only [protocol] at hP
    obtain ⟨h1, h2, h3⟩ := hP
    subst h1
    subst h2
    refine ⟨rfl, rfl, ?_, rfl, rfl⟩
    intro t ht
    have ht1 : t ∈ th := ht
    obtain ⟨k, hk, rfl⟩ := List.getElem_of_mem ht1
    have hlen : th.length ≤ j := by simpa using h
    exact h3 k (by omega) _ (List.getElem?_eq_getElem hk)

theorem taken_nil_of_no_get (acts : List (Action α)) :
    ∀ (h : List (Action α)) (c c1 : Sys α × List (Event α)),
      ((∀ a ∈ h, a ≠ Action.get_task) → taken c.2 = []) → run acts c = some c1 →
      (∀ a ∈ h ++ acts, a ≠ Action.get_task) → taken c1.2 = [] := by
  refine run_invariant (fun h c => (∀ a ∈ h, a ≠ Action.get_task) → taken c.2 = []) ?_ acts
  intro h a s tr s1 ev hP hm hno
  have h0 : taken tr = [] := hP (fun b hb => hno b (by simp [hb]))
  have ha : a ≠ Action.get_task := hno a (by simp)
  show taken (tr ++ ev) = []
  rw [taken_append, h0]
  cases hm <;> first | rfl | exact absurd rfl ha

end shutdown

section stop_call
variable {α : Type}

/-- Within one call of `stop ()` that found the pool running, from any state
whatever: in the join loop the flag is set and the queue is empty, and the
caller is between calls again only with the pool stopped, without thread
handles and with an empty queue. -/
theorem stop_call_drained (sched : List (Action α)) (c c1 : Sys α × List (Event α))
    (hc : c.1.caller = Caller.stop_wait)
    (hs : ∀ a ∈ sched, a = Action.resume ∨ ∃ i, a = Action.worker i)
    (hr : run sched c = some c1) (hret : c1.1.caller = Caller.idle) :
    c1.1.pool = ⟨[], [], true⟩ := by
  have key := run_invariant
    (fun h c => (∀ a ∈ h, a = Action.resume ∨ ∃ i, a = Action.worker i) →
      (c.1.caller = Caller.idle → c.1.pool = ⟨[], [], true⟩) ∧
      (∀ j, c.1.caller = Caller.stop_join j → c.1.pool.stop = true ∧ c.1.pool.tasks = []))
    (by
      intro h a s tr s1 ev hI hm hall
      have hprev := hI (fun b hb => hall b (by simp [hb]))
      have ha := hall a (by simp)
      have hstuck : ∀ (th : List (Thread α)) (q : List (Nat × Task α)) (st : Bool) (i : Nat)
          (t : Thread α) (p1 : Pool α), th[i]? = some t →
          ((⟨th, q, st⟩ : Pool α) = ⟨[], [], true⟩) → p1 = ⟨[], [], true⟩ := by
        intro th q st i t p1 hi he
        simp only [Pool.mk.injEq] at he
        rw [he.1] at hi
        simp at hi
      cases hm with
      | add p task priority => simp at ha
      | get_empty th st => simp at ha
      | get_entry th k task es st => simp at ha
      | init_skip p size h => simp at ha
      | init_spawn th q size h => simp at ha
      | init_unwind th q size h => simp at ha
      | stop_skip th q => simp at ha
      | stop_enter th q => simp at ha
      | resume_wait th st => simp
      | resume_join p j h =>
        refine ⟨fun hi => by simp at hi, fun k _ => hprev.2 j rfl⟩
      | resume_clear th q st j h =>
        have := hprev.2 j rfl
        simp only at this
        refine ⟨fun _ => by simp [this.1, this.2], fun k hk => by simp at hk⟩
      | exit_true th q c i h =>
        exact ⟨fun hi => hstuck _ _ _ _ _ _ h (hprev.1 hi), fun j hj => hprev.2 j hj⟩
      | exit_false th q c i h =>
        exact ⟨fun hi => hstuck _ _ _ _ _ _ h (hprev.1 hi), fun j hj => hprev.2 j hj⟩
      | take_empty th st c i h =>
        exact ⟨fun hi => hstuck _ _ _ _ _ _ h (hprev.1 hi), fun j hj => hprev.2 j hj⟩
      | take_null th k es st c i h =>
        refine ⟨fun hi => hstuck _ _ _ _ _ _ h (hprev.1 hi), fun j hj => ?_⟩
        have := (hprev.2 j hj).2
        simp at this
      | take_task th k t es st c i h =>
        refine ⟨fun hi => hstuck _ _ _ _ _ _ h (hprev.1 hi), fun j hj => ?_⟩
        have := (hprev.2 j hj).2
        simp at this
      | call th q st c i t h =>
        exact ⟨fun hi => hstuck _ _ _ _ _ _ h (hprev.1 hi), fun j hj => hprev.2 j hj⟩
      | wake th q st c i h hp =>
        exact ⟨fun hi => hstuck _ _ _ _ _ _ h (hprev.1 hi), fun j hj => hprev.2 j hj⟩)
    sched [] c c1
    (fun _ => ⟨fun hi => by rw [hc] at hi; exact absurd hi (by simp),
      fun j hj => by rw [hc] at hj; exact absurd hj (by simp)⟩) hr
  exact (key (by simpa using hs)).1 hret

end stop_call

/-- Counterexample to C7 as stated: a pool built with 0 workers is given one
task; `stop ()` returns at once and the task is still queued. -/
theorem stop_keeps_tasks_of_stopped_pool :
    created 0 [Action.add_task (some 'a') 0, Action.stop] =
        some (⟨⟨[], [(0, some 'a')], true⟩, Caller.idle⟩, []) ∧
      ¬ (∀ (n : Nat) (acts : List (Action Char)) (a : Action Char) (s : Sys Char)
          (tr : List (Event Char)), created n (acts ++ [a]) = some (s, tr) →
          (a = Action.stop ∨ a = Action.resume) → s.caller = Caller.idle →
          s.pool.stop = true ∧ size s.pool = 0 ∧ s.pool.tasks = []) := by
  refine ⟨by decide, fun h => ?_⟩
  have := h 0 [Action.add_task (some 'a') 0] Action.stop
    ⟨⟨[], [(0, some 'a')], true⟩, Caller.idle⟩ [] (by decide) (Or.inl rfl) rfl
  simp at this

/-- C7, amended: whenever a call of `stop ()` that finds the pool running
returns, from any state whatever and under any interleaving of the workers,
the pool is stopped, has no thread handles and has an empty queue; a call that
finds the pool stopped returns at once and leaves the queue as it is. -/
theorem stop_drains_running_pool {α : Type} (s s1 : Sys α) (tr tr1 : List (Event α))
    (sched : List (Action α)) (hidle : s.caller = Caller.idle) (hrun : s.pool.stop = false)
    (hs : ∀ a ∈ sched, a = Action.resume ∨ ∃ i, a = Action.worker i)
    (hr : run (Action.stop :: sched) (s, tr) = some (s1, tr1))
    (hret : s1.caller = Caller.idle) :
    s1.pool.stop = true ∧ size s1.pool = 0 ∧ s1.pool.tasks = [] ∧
      (∀ (th : List (Thread α)) (q : List (Nat × Task α)),
        step Action.stop ⟨⟨th, q, true⟩, Caller.idle⟩ =
          some (⟨⟨th, q, true⟩, Caller.idle⟩, [])) := by
  obtain ⟨p, c⟩ := s
  simp only at hidle hrun
  subst hidle
  have hstep : step Action.stop ⟨p, Caller.idle⟩ = some (⟨p, Caller.stop_wait⟩, []) := by
    simp [step, hrun]
  simp only [run, hstep, List.append_nil] at hr
  have h := stop_call_drained sched (⟨p, Caller.stop_wait⟩, tr) (s1, tr1) rfl hs hr hret
  simp only at h
  rw [size, h]
  exact ⟨rfl, rfl, rfl, fun th q => by simp [step]⟩

/-- Witness of C7, amended: a running pool of one worker that holds a task,
with a second task queued, is stopped. -/
theorem stop_drains_running_pool_witness :
    run (Action.stop :: [Action.worker 0, Action.worker 0, Action.worker 0, Action.worker 0,
        Action.resume, Action.worker 0, Action.worker 0, Action.resume, Action.resume])
        ((⟨⟨[Thread.at_task 'a'], [(0, some 'b')], false⟩, Caller.idle⟩ : Sys Char), []) =
      some (⟨⟨[], [], true⟩, Caller.idle⟩, [Event.executed 'a', Event.executed 'b']) ∧
    (⟨[], [], true⟩ : Pool Char).stop = true ∧ size (⟨[], [], true⟩ : Pool Char) = 0 ∧
      (⟨[], [], true⟩ : Pool Char).tasks = [] :=
  have h := stop_drains_running_pool
    (⟨⟨[Thread.at_task 'a'], [(0, some 'b')], false⟩, Caller.idle⟩ : Sys Char)
    ⟨⟨[], [], true⟩, Caller.idle⟩ [] [Event.executed 'a', Event.executed 'b']
    [Action.worker 0, Action.worker 0, Action.worker 0, Action.worker 0,
      Action.resume, Action.worker 0, Action.worker 0, Action.resume, Action.resume]
    rfl rfl (by simp) (by decide) rfl
  ⟨by decide, h.1, h.2.1, h.2.2.1⟩

/-- C8: along every execution the submitted bodies are, as a multiset, the
queued ones, the ones held by workers, the ones run and the ones the caller
took back.  `stop ()` can return from its join loop only when the queue is
empty and every worker has left its loop; at that moment every submitted body
not taken back by the caller has been run exactly once: the executions are a
permutation of the submissions, so there are as many, and none repeats unless
it was submitted that often. -/
theorem stop_runs_every_task {α : Type} (n : Nat) (acts : List (Action α)) (s : Sys α)
    (tr : List (Event α)) (hr : created n acts = some (s, tr)) :
    ((submitted acts : Multiset α) =
        (queued s.pool : Multiset α) + (in_flight s.pool.threads : Multiset α) +
          (executed tr : Multiset α) + (taken tr : Multiset α)) ∧
      ∀ s1 ev, step Action.resume s = some (s1, ev) → s1.caller = Caller.idle →
        s.pool.tasks = [] ∧ (∀ t ∈ s.pool.threads, t = Thread.finished) ∧
          s1.pool = ⟨[], [], true⟩ ∧ ev = [] ∧
          (executed tr ++ taken tr).Perm (submitted acts) ∧
          ((∀ a ∈ acts, a ≠ Action.get_task) →
            (executed tr).Perm (submitted acts) ∧
              (executed tr).length = (submitted acts).length ∧
              ((submitted acts).Nodup → (executed tr).Nodup)) := by
  have hPC := sound_run protocol_boot conserved_boot hr
  have hC : conserved acts (s, tr) := by simpa [conserved, submitted] using hPC.2
  refine ⟨hC, ?_⟩
  intro s1 ev hs hidle
  obtain ⟨h1, -, h3, h4, h5⟩ := resume_returns hPC.1 hs hidle
  have hperm : (executed tr ++ taken tr).Perm (submitted acts) := by
    have hq : queued s.pool = [] := by simp [queued, h1]
    have hf : in_flight s.pool.threads = [] :=
      in_flight_finished_or_idle (fun t ht => Or.inl (h3 t ht))
    have hC1 := hC
    simp only [conserved, hq, hf, Multiset.coe_nil, zero_add, Multiset.coe_add] at hC1
    exact (Multiset.coe_eq_coe.1 hC1).symm
  refine ⟨h1, h3, h4, h5, hperm, ?_⟩
  intro hno
  have ht : taken tr = [] :=
    taken_nil_of_no_get (Action.init n :: acts) [] (boot α, []) (s, tr) (fun _ => rfl) hr
      (by
        intro a ha
        simp only [List.nil_append, List.mem_cons] at ha
        rcases ha with rfl | ha
        · simp
        · exact hno a ha)
  rw [ht, List.append_nil] at hperm
  exact ⟨hperm, hperm.length_eq, fun hn => hperm.nodup_iff.2 hn⟩

/-- Witness of C8: two workers, three tasks of priorities 5, 1 and 3, and a
`stop ()` that starts while two of them are still being run. -/
theorem stop_runs_every_task_witness :
    created 2 [Action.add_task (some 'a') 5, Action.add_task (some 'b') 1,
        Action.add_task (some 'c') 3, Action.worker 0, Action.worker 0, Action.worker 1,
        Action.worker 1, Action.worker 0, Action.worker 0, Action.stop, Action.worker 1,
        Action.worker 0, Action.worker 1, Action.worker 0, Action.resume, Action.worker 0,
        Action.worker 0, Action.resume, Action.worker 1, Action.worker 1, Action.resume] =
      some (⟨⟨[Thread.finished, Thread.finished], [], true⟩, Caller.stop_join 2⟩,
        [Event.spawned 2, Event.executed 'b', Event.executed 'c', Event.executed 'a']) ∧
    step Action.resume (⟨⟨[Thread.finished, Thread.finished], [], true⟩,
        Caller.stop_join 2⟩ : Sys Char) = some (⟨⟨[], [], true⟩, Caller.idle⟩, []) ∧
    (executed [Event.spawned 2, Event.executed 'b', Event.executed 'c',
        Event.executed 'a']).Perm ['a', 'b', 'c'] :=
  ⟨by decide, by decide,
    ((stop_runs_every_task 2 [Action.add_task (some 'a') 5, Action.add_task (some 'b') 1,
        Action.add_task (some 'c') 3, Action.worker 0, Action.worker 0, Action.worker 1,
        Action.worker 1, Action.worker 0, Action.worker 0, Action.stop, Action.worker 1,
        Action.worker 0, Action.worker 1, Action.worker 0, Action.resume, Action.worker 0,
        Action.worker 0, Action.resume, Action.worker 1, Action.worker 1, Action.resume]
      (⟨⟨[Thread.finished, Thread.finished], [], true⟩, Caller.stop_join 2⟩ : Sys Char)
      [Event.spawned 2, Event.executed 'b', Event.executed 'c', Event.executed 'a']
      (by decide)).2 ⟨⟨[], [], true⟩, Caller.idle⟩ [] (by decide) rfl).2.2.2.2.2
      (by decide) |>.1⟩

end ThreadPool
